import Mathlib

/-!
Verification of the I18nRailsEditKey editor plugin (file I18nRailsEditKey.py
and its two embedded Ruby helper scripts) against its natural-language
specification.  Strings are modelled as lists of characters; Python and Ruby
string operations are translated operationally.  Whitespace is modelled as the
ASCII whitespace characters.
-/

open List

namespace I18nRails

/-- Shorthand turning a string literal into the list-of-characters model. -/
def lc (s : String) : List Char := s.data

/-- Model of the ASCII whitespace characters recognised by Python "str.strip"
and by the regex whitespace class. -/
def isWs (c : Char) : Bool :=
  c = ' ' || c = '\t' || c = '\n' || c = '\r' || c = (Char.ofNat 11) || c = (Char.ofNat 12)

/-- Python "line.strip()" being empty: a line is blank when it consists only
of whitespace. -/
def isBlankL (l : List Char) : Bool := l.all isWs

/-- Python "line.strip().startswith" applied to the hash mark: the first
non-whitespace character of the line is a hash mark. -/
def isCommentL (l : List Char) : Bool :=
  match l.dropWhile isWs with
  | [] => false
  | c :: _ => c = '#'

/-- Translation of the method _indent (I18nRailsEditKey.py lines 558-567):
leading spaces count 1, leading tabs count 2, the count stops at the first
other character. -/
def indentW : List Char → Nat
  | [] => 0
  | c :: rest =>
    if c = ' ' then 1 + indentW rest
    else if c = '\t' then 2 + indentW rest
    else 0

/-- Length of the maximal whitespace run at the start of a line. -/
def wsRun (l : List Char) : Nat := (l.takeWhile isWs).length

/-- Regex matching anchored at the start of a line with a leading
whitespace-star group: the pattern matches after some portion of the leading
whitespace run (the regex engine backtracks over the amount consumed). -/
def matchAfterWs (l pat : List Char) : Bool :=
  (List.range (wsRun l + 1)).any (fun n => pat.isPrefixOf (l.drop n))

/-- The double-quoted key followed by a colon. -/
def quotedKeyColon (key : List Char) : List Char := '"' :: (key ++ ['"', ':'])

/-- The bare key followed by a colon. -/
def bareKeyColon (key : List Char) : List Char := key ++ [':']

/-- Translation of the method _line_starts_key (lines 569-573): the line has
exactly the given indentation and, after optional leading whitespace, starts
with the key (optionally double-quoted) followed by a colon. -/
def lineStartsKey (l key : List Char) (exactIndent : Nat) : Bool :=
  (indentW l == exactIndent) &&
    (matchAfterWs l (quotedKeyColon key) || matchAfterWs l (bareKeyColon key))

/-- Loop of _find_key_line_within_block (lines 575-593) over the lines after
the parent line; i is the absolute index of the head of ls and child carries
the indentation of the first content line seen so far (the Python variable
child_indent). -/
def findKeyAux (key : List Char) (parentIndent : Nat) :
    List (List Char) → Nat → Option Nat → Option (Nat × Nat)
  | [], _, _ => none
  | l :: ls, i, child =>
    if !isBlankL l && decide (indentW l ≤ parentIndent) then none
    else if isCommentL l || isBlankL l then findKeyAux key parentIndent ls (i + 1) child
    else if decide (parentIndent < indentW l) then
      let c := child.getD (indentW l)
      if (indentW l == c) && lineStartsKey l key c then some (i, c)
      else findKeyAux key parentIndent ls (i + 1) (some c)
    else findKeyAux key parentIndent ls (i + 1) child

/-- Translation of _find_key_line_within_block (lines 575-593): scan the lines
after start_idx for the key at the indentation of the first child line,
stopping at the end of the indentation block. -/
def findKeyLineWithinBlock (lines : List (List Char)) (startIdx parentIndent : Nat)
    (key : List Char) : Option (Nat × Nat) :=
  findKeyAux key parentIndent (lines.drop (startIdx + 1)) (startIdx + 1) none

/-- A content line is neither blank nor a comment line. -/
def isContentL (l : List Char) : Bool := !isBlankL l && !isCommentL l

/-- Specification following the claim text: the indentation block of the
parent consists of the lines after it up to (excluding) the first non-blank
line whose indentation is less than or equal to the parent indentation. -/
def blockOf (lines : List (List Char)) (startIdx parentIndent : Nat) : List (List Char) :=
  (lines.drop (startIdx + 1)).takeWhile
    (fun l => isBlankL l || decide (parentIndent < indentW l))

/-- Specification following the claim text: the child indentation is the first
indentation greater than the parent one encountered in the block, i.e. the
indentation of the first content line of the block. -/
def firstChildIndent (block : List (List Char)) : Option Nat :=
  (block.find? isContentL).map indentW

/-- Specification of _find_key_line_within_block following the claim text:
the result is the first line of the block that is a content line, sits at the
child indentation, and starts with the sought key. -/
def findKeyLineSpec (lines : List (List Char)) (startIdx parentIndent : Nat)
    (key : List Char) : Option (Nat × Nat) :=
  let block := blockOf lines startIdx parentIndent
  match firstChildIndent block with
  | none => none
  | some c =>
    match block.findIdx?
        (fun l => isContentL l && (indentW l == c) && lineStartsKey l key c) with
    | none => none
    | some j => some (startIdx + 1 + j, c)

theorem findIdx?_cons_eq {α} (p : α → Bool) (a : α) (l : List α) :
    (a :: l).findIdx? p = if p a then some 0 else (l.findIdx? p).map (· + 1) := by
  simp [List.findIdx?_cons]

theorem findKeyAux_cons_stop (key : List Char) (parentIndent : Nat) (l : List Char)
    (ls : List (List Char)) (i : Nat) (child : Option Nat)
    (h1 : isBlankL l = false) (h2 : indentW l ≤ parentIndent) :
    findKeyAux key parentIndent (l :: ls) i child = none := by
  simp [findKeyAux, h1, h2]

theorem findKeyAux_cons_blank (key : List Char) (parentIndent : Nat) (l : List Char)
    (ls : List (List Char)) (i : Nat) (child : Option Nat)
    (h : isBlankL l = true) :
    findKeyAux key parentIndent (l :: ls) i child =
      findKeyAux key parentIndent ls (i + 1) child := by
  simp [findKeyAux, h]

theorem findKeyAux_cons_comment (key : List Char) (parentIndent : Nat) (l : List Char)
    (ls : List (List Char)) (i : Nat) (child : Option Nat)
    (h1 : isBlankL l = false) (h2 : isCommentL l = true) (h3 : parentIndent < indentW l) :
    findKeyAux key parentIndent (l :: ls) i child =
      findKeyAux key parentIndent ls (i + 1) child := by
  have hle : ¬ indentW l ≤ parentIndent := by omega
  simp [findKeyAux, h1, h2, hle]

theorem findKeyAux_cons_content (key : List Char) (parentIndent : Nat) (l : List Char)
    (ls : List (List Char)) (i : Nat) (child : Option Nat)
    (h1 : isBlankL l = false) (h2 : isCommentL l = false) (h3 : parentIndent < indentW l) :
    findKeyAux key parentIndent (l :: ls) i child =
      (if (indentW l == child.getD (indentW l)) &&
            lineStartsKey l key (child.getD (indentW l)) then
        some (i, child.getD (indentW l))
      else findKeyAux key parentIndent ls (i + 1) (some (child.getD (indentW l)))) := by
  have hle : ¬ indentW l ≤ parentIndent := by omega
  simp [findKeyAux, h1, h2, hle, h3]

theorem findKeyAux_some_phase (key : List Char) (parentIndent : Nat) (c : Nat) :
    ∀ (ls : List (List Char)) (i : Nat),
      findKeyAux key parentIndent ls i (some c) =
        match (ls.takeWhile (fun l => isBlankL l || decide (parentIndent < indentW l))).findIdx?
            (fun l => isContentL l && (indentW l == c) && lineStartsKey l key c) with
        | none => none
        | some j => some (i + j, c) := by
  intro ls
  induction ls with
  | nil => intro i; rfl
  | cons l ls ih =>
    intro i
    by_cases hb : isBlankL l = true
    · have hcont : isContentL l = false := by simp [isContentL, hb]
      rw [findKeyAux_cons_blank key parentIndent l ls i (some c) hb]
      rw [ih (i + 1)]
      rw [List.takeWhile_cons, if_pos (by simp [hb])]
      rw [findIdx?_cons_eq, if_neg (by simp [hcont])]
      cases hfi : (ls.takeWhile (fun l => isBlankL l || decide (parentIndent < indentW l))).findIdx?
          (fun l => isContentL l && (indentW l == c) && lineStartsKey l key c) with
      | none => simp
      | some j => simp only [hfi, Option.map_some]; simp; omega
    · rw [Bool.not_eq_true] at hb
      by_cases hle : indentW l ≤ parentIndent
      · rw [findKeyAux_cons_stop key parentIndent l ls i (some c) hb hle]
        rw [List.takeWhile_cons, if_neg (by simp [hb]; omega)]
        rfl
      · have hgt : parentIndent < indentW l := by omega
        by_cases hc : isCommentL l = true
        · have hcont : isContentL l = false := by simp [isContentL, hc]
          rw [findKeyAux_cons_comment key parentIndent l ls i (some c) hb hc hgt]
          rw [ih (i + 1)]
          rw [List.takeWhile_cons, if_pos (by simp [hgt])]
          rw [findIdx?_cons_eq, if_neg (by simp [hcont])]
          cases hfi : (ls.takeWhile (fun l => isBlankL l || decide (parentIndent < indentW l))).findIdx?
              (fun l => isContentL l && (indentW l == c) && lineStartsKey l key c) with
          | none => simp
          | some j => simp only [hfi, Option.map_some]; simp; omega
        · rw [Bool.not_eq_true] at hc
          have hcont : isContentL l = true := by simp [isContentL, hb, hc]
          rw [List.takeWhile_cons, if_pos (by simp [hgt])]
          rw [findIdx?_cons_eq]
          rw [findKeyAux_cons_content key parentIndent l ls i (some c) hb hc hgt]
          simp only [Option.getD_some]
          by_cases hp : ((indentW l == c) && lineStartsKey l key c) = true
          · rw [if_pos hp, if_pos (by simp only [hcont, Bool.true_and]; exact hp)]
            simp
          · rw [if_neg hp, if_neg (by simp only [hcont, Bool.true_and]; exact hp)]
            rw [ih (i + 1)]
            cases hfi : (ls.takeWhile (fun l => isBlankL l || decide (parentIndent < indentW l))).findIdx?
                (fun l => isContentL l && (indentW l == c) && lineStartsKey l key c) with
            | none => simp
            | some j => simp only [hfi, Option.map_some]; simp; omega

theorem findKeyAux_none_phase (key : List Char) (parentIndent : Nat) :
    ∀ (ls : List (List Char)) (i : Nat),
      findKeyAux key parentIndent ls i none =
        (match ((ls.takeWhile (fun l => isBlankL l || decide (parentIndent < indentW l))).find?
              isContentL).map indentW with
         | none => none
         | some c =>
           match (ls.takeWhile (fun l => isBlankL l || decide (parentIndent < indentW l))).findIdx?
               (fun l => isContentL l && (indentW l == c) && lineStartsKey l key c) with
           | none => none
           | some j => some (i + j, c)) := by
  intro ls
  induction ls with
  | nil => intro i; rfl
  | cons l ls ih =>
    intro i
    by_cases hb : isBlankL l = true
    · have hcont : isContentL l = false := by simp [isContentL, hb]
      rw [findKeyAux_cons_blank key parentIndent l ls i none hb]
      rw [ih (i + 1)]
      rw [List.takeWhile_cons, if_pos (by simp [hb])]
      rw [List.find?_cons_of_neg _ (by simp [hcont])]
      cases hfo : ((ls.takeWhile (fun l => isBlankL l || decide (parentIndent < indentW l))).find?
          isContentL).map indentW with
      | none => simp [hfo]
      | some c =>
        simp only [hfo]
        rw [findIdx?_cons_eq, if_neg (by simp [hcont])]
        cases hfi : (ls.takeWhile (fun l => isBlankL l || decide (parentIndent < indentW l))).findIdx?
            (fun l => isContentL l && (indentW l == c) && lineStartsKey l key c) with
        | none => simp
        | some j => simp only [hfi, Option.map_some]; simp; omega
    · rw [Bool.not_eq_true] at hb
      by_cases hle : indentW l ≤ parentIndent
      · rw [findKeyAux_cons_stop key parentIndent l ls i none hb hle]
        rw [List.takeWhile_cons, if_neg (by simp [hb]; omega)]
        rfl
      · have hgt : parentIndent < indentW l := by omega
        by_cases hc : isCommentL l = true
        · have hcont : isContentL l = false := by simp [isContentL, hc]
          rw [findKeyAux_cons_comment key parentIndent l ls i none hb hc hgt]
          rw [ih (i + 1)]
          rw [List.takeWhile_cons, if_pos (by simp [hgt])]
          rw [List.find?_cons_of_neg _ (by simp [hcont])]
          cases hfo : ((ls.takeWhile (fun l => isBlankL l || decide (parentIndent < indentW l))).find?
              isContentL).map indentW with
          | none => simp [hfo]
          | some c =>
            simp only [hfo]
            rw [findIdx?_cons_eq, if_neg (by simp [hcont])]
            cases hfi : (ls.takeWhile (fun l => isBlankL l || decide (parentIndent < indentW l))).findIdx?
                (fun l => isContentL l && (indentW l == c) && lineStartsKey l key c) with
            | none => simp
            | some j => simp only [hfi, Option.map_some]; simp; omega
        · rw [Bool.not_eq_true] at hc
          have hcont : isContentL l = true := by simp [isContentL, hb, hc]
          rw [List.takeWhile_cons, if_pos (by simp [hgt])]
          rw [List.find?_cons_of_pos _ (by simp [hcont])]
          simp only [Option.map_some']
          rw [findIdx?_cons_eq]
          rw [findKeyAux_cons_content key parentIndent l ls i none hb hc hgt]
          simp only [Option.getD_none, beq_self_eq_true, Bool.true_and]
          by_cases hp : lineStartsKey l key (indentW l) = true
          · rw [if_pos hp, if_pos (by simp only [hcont, Bool.true_and, beq_self_eq_true]; exact hp)]
            simp
          · rw [if_neg hp,
              if_neg (by simp only [hcont, Bool.true_and, beq_self_eq_true]; exact hp)]
            rw [findKeyAux_some_phase key parentIndent (indentW l) ls (i + 1)]
            cases hfi : (ls.takeWhile (fun m => isBlankL m || decide (parentIndent < indentW m))).findIdx?
                (fun m => isContentL m && (indentW m == indentW l) && lineStartsKey m key (indentW l)) with
            | none => simp
            | some j => simp only [hfi, Option.map_some]; simp; omega

/-- Claim C1: for every list of file lines, parent line index and parent
indentation, _find_key_line_within_block returns the index of the first line
after the parent that is neither blank nor a comment line, has indentation
equal to the first indentation greater than the parent one encountered in the
block (tabs counted as two spaces), and begins with the sought key name
(optionally double-quoted) followed by a colon; the scan stops at the first
non-blank line whose indentation is less than or equal to the parent
indentation. -/
theorem c1_find_key_line_within_block (lines : List (List Char))
    (startIdx parentIndent : Nat) (key : List Char) :
    findKeyLineWithinBlock lines startIdx parentIndent key =
      findKeyLineSpec lines startIdx parentIndent key := by
  unfold findKeyLineWithinBlock findKeyLineSpec blockOf firstChildIndent
  rw [findKeyAux_none_phase key parentIndent (lines.drop (startIdx + 1)) (startIdx + 1)]

/-- Python str.replace of backslashes by slashes (line 79). -/
def normSlashes (p : List Char) : List Char := p.map (fun c => if c = '\\' then '/' else c)

/-- Python str.split on a single character, keeping empty parts. -/
def splitCharL (sep : Char) : List Char → List (List Char)
  | [] => [[]]
  | c :: rest =>
    match splitCharL sep rest with
    | [] => [[]]
    | h :: t => if c = sep then [] :: h :: t else (c :: h) :: t

/-- Python substring split at the first occurrence of pat: the text before and
after it, or none when pat does not occur. -/
def splitFirstSub (pat : List Char) : List Char → Option (List Char × List Char)
  | [] => if pat.isPrefixOf ([] : List Char) then some ([], []) else none
  | c :: rest =>
    if pat.isPrefixOf (c :: rest) then some ([], (c :: rest).drop pat.length)
    else
      match splitFirstSub pat rest with
      | some p => some (c :: p.1, p.2)
      | none => none

/-- Python "pat in s" substring containment. -/
def containsSub (s pat : List Char) : Bool := (splitFirstSub pat s).isSome

/-- Python str.endswith. -/
def endsWithL (s suf : List Char) : Bool := suf.isSuffixOf s

/-- The text after the first occurrence of pat (Python split with maxsplit 1,
element 1). -/
def afterFirst (pat s : List Char) : List Char := ((splitFirstSub pat s).getD ([], [])).2

/-- Regex substitution of an end-anchored literal pattern by the empty string:
remove the suffix when present (line 84). -/
def dropSuffixIf (s suf : List Char) : List Char :=
  if suf.isSuffixOf s then s.take (s.length - suf.length) else s

/-- Translation of os.path.splitext restricted to names without path
separators: split at the last dot, except that no extension is recognised
when only dots precede that last dot. -/
def splitextL (b : List Char) : List Char × List Char :=
  match b.reverse.findIdx? (fun c => c = '.') with
  | none => (b, [])
  | some k =>
    let d := b.length - 1 - k
    if (b.take d).any (fun c => c ≠ '.') then (b.take d, b.drop d) else (b, [])

/-- The Rails template extensions recognised by strip_view_extensions
(lines 46-48). -/
def viewExts : List (List Char) :=
  [lc ".erb", lc ".haml", lc ".slim", lc ".rhtml", lc ".builder", lc ".jbuilder",
   lc ".html", lc ".text", lc ".txt", lc ".json", lc ".xml", lc ".js", lc ".css",
   lc ".scss", lc ".sass"]

/-- The while loop of strip_view_extensions (lines 42-51); the fuel argument
bounds the number of iterations and is adequate because every iteration
strictly shortens the name. -/
def stripExtLoop : Nat → List Char → List Char
  | 0, b => b
  | fuel + 1, b =>
    let p := splitextL b
    if p.2 = [] then b
    else if viewExts.contains (p.2.map Char.toLower) then stripExtLoop fuel p.1
    else b

/-- Translation of strip_view_extensions (lines 38-52).  The function is only
applied to single path segments, on which os.path.basename is the identity,
so the basename call is not modelled. -/
def strip_view_extensions (fname : List Char) : List Char :=
  let base := match fname with
    | '_' :: r => r
    | _ => fname
  stripExtLoop base.length base

/-- Characters of the regex class for controller action names. -/
def isNameChar (c : Char) : Bool := c.isAlpha || c.isDigit || c = '_' || c = '!' || c = '?'

/-- Space or tab, the whitespace accepted around the def keyword. -/
def isSpTab (c : Char) : Bool := c = ' ' || c = '\t'

/-- Match of the action-definition regex against one line: optional spaces and
tabs, the keyword def, at least one space or tab, and a nonempty action name;
the captured name is the maximal name-character run. -/
def defLineName (l : List Char) : Option (List Char) :=
  let t := l.dropWhile isSpTab
  if (lc "def").isPrefixOf t then
    match t.drop 3 with
    | [] => none
    | c :: rest =>
      if isSpTab c then
        let name := (rest.dropWhile isSpTab).takeWhile isNameChar
        if name = [] then none else some name
      else none
  else none

/-- Translation of infer_controller_action_at_point (lines 55-64): the last
action-definition line in the text before the caret, scanning the lines in
order. -/
def infer_controller_action_at_point (textBeforeCaret : List Char) : Option (List Char) :=
  ((splitCharL '\n' textBeforeCaret).filterMap defLineName).getLast?

/-- The marker of controller paths (line 82). -/
def ctrlMarker : List Char := lc "/app/controllers/"

/-- The controller file suffix (lines 82 and 84). -/
def ctrlSuffix : List Char := lc "_controller.rb"

/-- Python rel_key.lstrip applied to dots. -/
def stripLeadingDots (relKey : List Char) : List Char := relKey.dropWhile (fun c => c = '.')

/-- The scope parts built from the path parts after the views segment
(lines 99 and 108): all but the last part, then the last part with template
extensions stripped. -/
def scopeFromPav (pav : List (List Char)) : List (List Char) :=
  pav.dropLast ++ [strip_view_extensions (pav.getLast?.getD [])]

/-- The views fallback branch of resolve_relative_key (lines 102-110): the
parts after the first views segment, none when there is no views segment or
nothing follows it. -/
def viewFallbackScope (parts : List (List Char)) : Option (List (List Char)) :=
  match parts.findIdx? (fun p => p == lc "views") with
  | some j =>
    match parts.drop (j + 1) with
    | [] => none
    | pav => some (scopeFromPav pav)
  | none => none

/-- The view scope computation of resolve_relative_key (lines 91-112): the
first app segment followed by views when available, else the views fallback;
an empty remainder aborts the resolution. -/
def viewScopeFromParts (parts : List (List Char)) : Option (List (List Char)) :=
  match parts.findIdx? (fun p => p == lc "app") with
  | some iApp =>
    if (parts.drop (iApp + 1)).head? = some (lc "views") then
      match parts.drop (iApp + 2) with
      | [] => none
      | pav => some (scopeFromPav pav)
    else viewFallbackScope parts
  | none => viewFallbackScope parts

/-- Translation of resolve_relative_key (lines 67-114).  The view is modelled
by the file name and the text before the caret (view.substr of the region
from zero to the caret), which is all the function reads from it. -/
def resolve_relative_key (fileName textBeforeCaret relKey : List Char) : Option (List Char) :=
  if fileName = [] then none
  else
    let norm := normSlashes fileName
    if containsSub norm ctrlMarker && endsWithL norm ctrlSuffix then
      let ctrlBase := dropSuffixIf (afterFirst ctrlMarker norm) ctrlSuffix
      let scope := List.intercalate ['.'] ((splitCharL '/' ctrlBase).filter (fun p => p ≠ []))
      let action := (infer_controller_action_at_point textBeforeCaret).getD (lc "index")
      some (scope ++ '.' :: (action ++ '.' :: stripLeadingDots relKey))
    else
      match viewScopeFromParts (splitCharL '/' norm) with
      | none => none
      | some sp =>
        some (List.intercalate ['.'] (sp.filter (fun p => p ≠ [])) ++
          '.' :: stripLeadingDots relKey)

/-- Specification phrasing of the action inference following the claim text:
the name in the closest action-definition line at or above the caret, i.e.
the first such line when scanning the lines before the caret upwards. -/
def closestDefNameAbove (textBeforeCaret : List Char) : Option (List Char) :=
  ((splitCharL '\n' textBeforeCaret).reverse.filterMap defLineName).head?

theorem infer_eq_closest (t : List Char) :
    infer_controller_action_at_point t = closestDefNameAbove t := by
  unfold infer_controller_action_at_point closestDefNameAbove
  rw [List.filterMap_reverse, List.head?_reverse]

/-- Specification of the controller branch exactly as claim C3 states it: the
path after the controllers marker with the controller suffix removed and
every slash replaced by a dot, then the action, then the relative key without
leading dots. -/
def c3OrigSpec (fileName textBeforeCaret relKey : List Char) : Option (List Char) :=
  let norm := normSlashes fileName
  let scope := (dropSuffixIf (afterFirst ctrlMarker norm) ctrlSuffix).map
    (fun c => if c = '/' then '.' else c)
  let action := (closestDefNameAbove textBeforeCaret).getD (lc "index")
  some (scope ++ '.' :: (action ++ '.' :: stripLeadingDots relKey))

/-- Amended controller scope: slashes separate the path into segments, empty
segments are dropped, and the remaining segments are joined with dots. -/
def c3AmendedScope (fileName : List Char) : List Char :=
  List.intercalate ['.']
    ((splitCharL '/' (dropSuffixIf (afterFirst ctrlMarker (normSlashes fileName)) ctrlSuffix)).filter
      (fun p => p ≠ []))

/-- Claim C3, counterexample: on a controller path containing a double slash
the code drops the empty segment while the claim text (slash replaced by dot)
would produce two consecutive dots. -/
theorem c3_counterexample :
    (containsSub (normSlashes (lc "/r/app/controllers/admin//users_controller.rb")) ctrlMarker &&
      endsWithL (normSlashes (lc "/r/app/controllers/admin//users_controller.rb")) ctrlSuffix) = true ∧
    resolve_relative_key (lc "/r/app/controllers/admin//users_controller.rb") [] (lc ".x") =
      some (lc "admin.users.index.x") ∧
    c3OrigSpec (lc "/r/app/controllers/admin//users_controller.rb") [] (lc ".x") =
      some (lc "admin..users.index.x") ∧
    resolve_relative_key (lc "/r/app/controllers/admin//users_controller.rb") [] (lc ".x") ≠
      c3OrigSpec (lc "/r/app/controllers/admin//users_controller.rb") [] (lc ".x") :=
  ⟨by decide, by decide, by decide, by decide⟩

/-- Claim C3 (amended): for every controller file whose normalized path
contains the controllers marker and ends with the controller suffix, and
every relative key, resolve_relative_key returns the controller path after
the first occurrence of the marker with the suffix removed and its nonempty
slash-separated segments joined by dots, followed by the action name (the
closest definition line at or above the caret, index when none) and the
relative key without leading dots. -/
theorem c3_resolve_controller_key (fileName textBeforeCaret relKey : List Char)
    (h : (containsSub (normSlashes fileName) ctrlMarker &&
          endsWithL (normSlashes fileName) ctrlSuffix) = true) :
    resolve_relative_key fileName textBeforeCaret relKey =
      some (c3AmendedScope fileName ++ '.' ::
        ((closestDefNameAbove textBeforeCaret).getD (lc "index") ++ '.' ::
          stripLeadingDots relKey)) := by
  have hne : fileName ≠ [] := by
    intro hf
    rw [hf] at h
    exact absurd h (by decide)
  simp only [resolve_relative_key, hne, if_false, h, if_true, c3AmendedScope]
  rw [infer_eq_closest]

theorem c3_resolve_controller_key_witness :
    (containsSub (normSlashes (lc "/r/app/controllers/admin/users_controller.rb")) ctrlMarker &&
      endsWithL (normSlashes (lc "/r/app/controllers/admin/users_controller.rb")) ctrlSuffix) = true ∧
    resolve_relative_key (lc "/r/app/controllers/admin/users_controller.rb")
        (lc "class A\n  def show\n    t(") (lc ".hello") =
      some (c3AmendedScope (lc "/r/app/controllers/admin/users_controller.rb") ++ '.' ::
        ((closestDefNameAbove (lc "class A\n  def show\n    t(")).getD (lc "index") ++ '.' ::
          stripLeadingDots (lc ".hello"))) ∧
    resolve_relative_key (lc "/r/app/controllers/admin/users_controller.rb")
        (lc "class A\n  def show\n    t(") (lc ".hello") =
      some (lc "admin.users.show.hello") :=
  ⟨by decide,
   c3_resolve_controller_key (lc "/r/app/controllers/admin/users_controller.rb")
     (lc "class A\n  def show\n    t(") (lc ".hello") (by decide),
   by decide⟩

theorem findIdx?_eq_find?_range {α} (p : α → Bool) (l : List α) :
    l.findIdx? p = (List.range l.length).find? (fun i => (l[i]?.map p).getD false) := by
  induction l with
  | nil => rfl
  | cons a l ih =>
    rw [findIdx?_cons_eq]
    rw [List.length_cons, List.range_succ_eq_map]
    rw [List.find?_cons]
    have hcomp : ((fun i => (((a :: l)[i]?).map p).getD false) ∘ Nat.succ) =
        (fun i => ((l[i]?).map p).getD false) := by
      funext i
      simp [Function.comp, List.getElem?_cons_succ]
    by_cases hp : p a = true
    · simp [hp]
    · rw [Bool.not_eq_true] at hp
      simp only [List.getElem?_cons_zero, Option.map_some', Option.getD_some, hp,
        cond_false]
      rw [List.find?_map, hcomp, ← ih]
      cases l.findIdx? p <;> rfl

/-- Specification phrasing: the first index of the given segment among the
path parts. -/
def firstSegIdx (parts : List (List Char)) (seg : List Char) : Option Nat :=
  (List.range parts.length).find? (fun i => ((parts[i]?).map (fun s => s == seg)).getD false)

/-- Specification phrasing of the views fallback following the claim text:
the directory segments after the first views segment, the final one stripped;
none when views is absent or final. -/
def viewFallbackSpec (parts : List (List Char)) : Option (List (List Char)) :=
  match firstSegIdx parts (lc "views") with
  | some j =>
    match parts.drop (j + 1) with
    | [] => none
    | pav => some (scopeFromPav pav)
  | none => none

/-- Specification of the view scope with the amendment of claim C2: the first
app segment (not the first app-views pair) decides the branch; when the
segment right after it is views the scope consists of the segments after that
views, else of the segments after the first views segment anywhere. -/
def c2AmendedScopeOpt (parts : List (List Char)) : Option (List (List Char)) :=
  match firstSegIdx parts (lc "app") with
  | some i =>
    if parts[i + 1]? = some (lc "views") then
      match parts.drop (i + 2) with
      | [] => none
      | pav => some (scopeFromPav pav)
    else viewFallbackSpec parts
  | none => viewFallbackSpec parts

/-- Specification of the view resolution exactly as claim C2 states it: when
the path contains an app segment immediately followed by views (the first
such pair), the scope consists of the segments after that views; failing
that, of the segments after the first views segment. -/
def c2OrigSpec (fileName relKey : List Char) : Option (List Char) :=
  let parts := splitCharL '/' (normSlashes fileName)
  let scopeOpt :=
    match (List.range parts.length).find? (fun i =>
        (((parts[i]?).map (fun s => s == lc "app")).getD false) &&
        (((parts[i + 1]?).map (fun s => s == lc "views")).getD false)) with
    | some i =>
      match parts.drop (i + 2) with
      | [] => none
      | pav => some (scopeFromPav pav)
    | none => viewFallbackSpec parts
  match scopeOpt with
  | none => none
  | some sp =>
    some (List.intercalate ['.'] (sp.filter (fun p => p ≠ [])) ++
      '.' :: stripLeadingDots relKey)

/-- Amended specification of the view resolution of claim C2. -/
def c2AmendedSpec (fileName relKey : List Char) : Option (List Char) :=
  match c2AmendedScopeOpt (splitCharL '/' (normSlashes fileName)) with
  | none => none
  | some sp =>
    some (List.intercalate ['.'] (sp.filter (fun p => p ≠ [])) ++
      '.' :: stripLeadingDots relKey)

/-- Claim C2, counterexample: on a path whose first app segment is not
followed by views although a later app-views pair exists, the code uses the
first views segment while the claim text selects the app-views pair. -/
theorem c2_counterexample :
    resolve_relative_key (lc "a/app/b/views/c/app/views/d/e.erb") [] (lc ".x") =
      some (lc "c.app.views.d.e.x") ∧
    c2OrigSpec (lc "a/app/b/views/c/app/views/d/e.erb") (lc ".x") =
      some (lc "d.e.x") ∧
    resolve_relative_key (lc "a/app/b/views/c/app/views/d/e.erb") [] (lc ".x") ≠
      c2OrigSpec (lc "a/app/b/views/c/app/views/d/e.erb") (lc ".x") :=
  ⟨by decide, by decide, by decide⟩

theorem viewFallback_eq_spec (parts : List (List Char)) :
    viewFallbackScope parts = viewFallbackSpec parts := by
  unfold viewFallbackScope viewFallbackSpec firstSegIdx
  rw [← findIdx?_eq_find?_range]

theorem viewScope_eq_amendedSpec (parts : List (List Char)) :
    viewScopeFromParts parts = c2AmendedScopeOpt parts := by
  unfold viewScopeFromParts c2AmendedScopeOpt firstSegIdx
  rw [← findIdx?_eq_find?_range]
  cases hi : parts.findIdx? (fun p => p == lc "app") with
  | none => exact viewFallback_eq_spec parts
  | some i =>
    simp only
    rw [List.head?_drop]
    by_cases hv : parts[i + 1]? = some (lc "views")
    · rw [if_pos hv, if_pos hv]
    · rw [if_neg hv, if_neg hv]
      exact viewFallback_eq_spec parts

/-- Claim C2 (amended): for every view file (one not taken by the controller
branch) whose normalized path has its first app segment immediately followed
by views or, failing that, any views segment, and every relative key,
resolve_relative_key returns the dot-joined nonempty directory segments after
that views segment, with the final filename segment stripped of one leading
underscore and of all trailing template extensions from the known set, then a
dot and the relative key without leading dots. -/
theorem c2_resolve_view_key (fileName textBeforeCaret relKey : List Char)
    (h : (containsSub (normSlashes fileName) ctrlMarker &&
          endsWithL (normSlashes fileName) ctrlSuffix) = false) :
    resolve_relative_key fileName textBeforeCaret relKey =
      c2AmendedSpec fileName relKey := by
  by_cases hf : fileName = []
  · rw [hf]; rfl
  · simp only [resolve_relative_key, hf, if_false, h, c2AmendedSpec]
    rw [if_neg (by decide : ¬ (false = true))]
    rw [viewScope_eq_amendedSpec]

theorem c2_resolve_view_key_witness :
    (containsSub (normSlashes (lc "app/views/foo/bar/_baz.html.erb")) ctrlMarker &&
      endsWithL (normSlashes (lc "app/views/foo/bar/_baz.html.erb")) ctrlSuffix) = false ∧
    resolve_relative_key (lc "app/views/foo/bar/_baz.html.erb") [] (lc ".search") =
      c2AmendedSpec (lc "app/views/foo/bar/_baz.html.erb") (lc ".search") ∧
    resolve_relative_key (lc "app/views/foo/bar/_baz.html.erb") [] (lc ".search") =
      some (lc "foo.bar.baz.search") :=
  ⟨by decide,
   c2_resolve_view_key (lc "app/views/foo/bar/_baz.html.erb") [] (lc ".search") (by decide),
   by decide⟩

/-- First index of an occurrence of pat inside s (Python str.find, with none
for absence). -/
def findSubIdx (pat s : List Char) : Option Nat :=
  (splitFirstSub pat s).map (fun p => p.1.length)

/-- One attempt of the value regex of _value_region_on_line (line 610) at a
position of the line: the key-colon token (quoted alternative first), then
whitespace, then a nonempty value group reaching the end of the line.  The
whitespace group backtracks so that the value group can take trailing
whitespace when nothing else follows.  The result is the value group span. -/
def matchValueAt (line key : List Char) (i : Nat) : Option (Nat × Nat) :=
  if (quotedKeyColon key).isPrefixOf (line.drop i) ∧
      (line.drop i).drop (quotedKeyColon key).length ≠ [] then
    some (i + (quotedKeyColon key).length +
      min (wsRun ((line.drop i).drop (quotedKeyColon key).length))
        (((line.drop i).drop (quotedKeyColon key).length).length - 1), line.length)
  else if (bareKeyColon key).isPrefixOf (line.drop i) ∧
      (line.drop i).drop (bareKeyColon key).length ≠ [] then
    some (i + (bareKeyColon key).length +
      min (wsRun ((line.drop i).drop (bareKeyColon key).length))
        (((line.drop i).drop (bareKeyColon key).length).length - 1), line.length)
  else none

/-- The regex search of _value_region_on_line: the match at the first position
where the pattern matches. -/
def regexSearchValue (line key : List Char) : Option (Nat × Nat) :=
  (List.range (line.length + 1)).findSome? (fun i => matchValueAt line key i)

/-- Translation of _value_region_on_line (lines 608-619): the value group of
the first match, truncated just before the first occurrence of space-hash
inside it; none when the regex does not match. -/
def valueRegionOnLine (line key : List Char) : Option (Nat × Nat) :=
  match regexSearchValue line key with
  | none => none
  | some (s, e) =>
    let value := (line.take e).drop s
    match findSubIdx (lc " #") value with
    | some h => some (s, s + h)
    | none => some (s, e)

/-- Translation of the selection step of _jump_loaded (lines 675-682): the
value region when one exists, else the whole line. -/
def jumpTargetOnLine (line key : List Char) : Nat × Nat :=
  match valueRegionOnLine line key with
  | some r => r
  | none => (0, line.length)

/-- The position just after the key-colon token (quoted alternative first)
when it starts at position i of the line. -/
def keyColonAt (line key : List Char) (i : Nat) : Option Nat :=
  if (quotedKeyColon key).isPrefixOf (line.drop i) then some (i + (quotedKeyColon key).length)
  else if (bareKeyColon key).isPrefixOf (line.drop i) then some (i + (bareKeyColon key).length)
  else none

/-- Specification of the jump target exactly as claim C5 states it: the text
following the first key-colon token and its separating whitespace, to the end
of the line but truncated just before the first space-hash; the whole line
when no scalar text follows the colon. -/
def c5OrigTarget (line key : List Char) : Nat × Nat :=
  match (List.range (line.length + 1)).findSome? (keyColonAt line key) with
  | none => (0, line.length)
  | some a =>
    let rest := line.drop a
    let v := rest.dropWhile isWs
    if v = [] then (0, line.length)
    else
      let s := a + wsRun rest
      match findSubIdx (lc " #") v with
      | some h => (s, s + h)
      | none => (s, line.length)

/-- The key-colon token position accepted by the value regex: the token must
be followed by at least one character (the value group is nonempty). -/
def keyColonValueAt (line key : List Char) (i : Nat) : Option Nat :=
  (keyColonAt line key i).bind (fun a => if line.drop a = [] then none else some a)

/-- Amended specification of the jump target of claim C5: as the claim states
it, except that when only whitespace follows the colon the selected region is
the final whitespace character of the line, and the whole-line fallback
happens only when nothing at all follows the accepted colon. -/
def c5AmendedTarget (line key : List Char) : Nat × Nat :=
  match (List.range (line.length + 1)).findSome? (keyColonValueAt line key) with
  | none => (0, line.length)
  | some a =>
    let rest := line.drop a
    let v := rest.dropWhile isWs
    if v = [] then (line.length - 1, line.length)
    else
      let s := a + wsRun rest
      match findSubIdx (lc " #") v with
      | some h => (s, s + h)
      | none => (s, line.length)

/-- Claim C5, counterexample: on a key line whose colon is followed by
whitespace only, the value regex backtracks and selects the final whitespace
character instead of falling back to the whole line as the claim states. -/
theorem c5_counterexample :
    jumpTargetOnLine (lc "a: ") (lc "a") = (2, 3) ∧
    c5OrigTarget (lc "a: ") (lc "a") = (0, 3) ∧
    jumpTargetOnLine (lc "a: ") (lc "a") ≠ c5OrigTarget (lc "a: ") (lc "a") :=
  ⟨by decide, by decide, by decide⟩

theorem rotate_singleton_eq {α} (a b : α) :
    ∀ (l : List α), l ++ [a] = b :: l → a = b := by
  intro l
  induction l generalizing b with
  | nil => intro h; exact (List.cons.injEq a [] b []).mp h |>.1
  | cons c l ih =>
    intro h
    have h1 : c = b ∧ l ++ [a] = c :: l := by
      rw [List.cons_append] at h
      exact ⟨((List.cons.injEq c _ b _).mp h).1, ((List.cons.injEq c _ b _).mp h).2⟩
    exact h1.1 ▸ ih c h1.2

theorem bare_not_prefix_of_quoted (key : List Char) :
    ¬ (bareKeyColon key <+: quotedKeyColon key) := by
  intro h
  have hlen : (bareKeyColon key).length = key.length + 1 := by
    simp [bareKeyColon]
  have heq : bareKeyColon key = (quotedKeyColon key).take (key.length + 1) := by
    rw [← hlen]
    exact List.prefix_iff_eq_take.mp h
  have htake : (quotedKeyColon key).take (key.length + 1) = '"' :: key := by
    unfold quotedKeyColon
    rw [List.take_succ_cons]
    congr 1
    exact List.take_left key ['"', ':']
  rw [htake] at heq
  unfold bareKeyColon at heq
  exact absurd (rotate_singleton_eq ':' '"' key heq) (by decide)

theorem matchValueAt_eq_spec (line key : List Char) (i : Nat) :
    matchValueAt line key i =
      match keyColonValueAt line key i with
      | none => none
      | some a => some (a + min (wsRun (line.drop a)) ((line.drop a).length - 1), line.length) := by
  have hd : ∀ n : Nat, line.drop (i + n) = (line.drop i).drop n := by
    intro n
    rw [List.drop_drop, Nat.add_comm]
  by_cases hq : (quotedKeyColon key).isPrefixOf (line.drop i) = true
  · have hka : keyColonAt line key i = some (i + (quotedKeyColon key).length) := by
      unfold keyColonAt
      rw [if_pos hq]
    by_cases hrq : (line.drop i).drop (quotedKeyColon key).length = []
    · have hsq : line.drop i = quotedKeyColon key := by
        rcases List.isPrefixOf_iff_prefix.mp hq with ⟨t, ht⟩
        have htt : (line.drop i).drop (quotedKeyColon key).length = t := by
          rw [← ht, List.drop_left]
        have ht0 : t = [] := by rw [← htt]; exact hrq
        rw [ht0, List.append_nil] at ht
        exact ht.symm
      have hb : (bareKeyColon key).isPrefixOf (line.drop i) = false := by
        rw [Bool.eq_false_iff]
        intro hb2
        rw [hsq] at hb2
        exact bare_not_prefix_of_quoted key (List.isPrefixOf_iff_prefix.mp hb2)
      have hkv : keyColonValueAt line key i = none := by
        unfold keyColonValueAt
        rw [hka]
        show (if line.drop (i + (quotedKeyColon key).length) = [] then none
          else some (i + (quotedKeyColon key).length)) = none
        rw [if_pos (by rw [hd]; exact hrq)]
      simp only [hkv]
      unfold matchValueAt
      rw [if_neg (fun hcon => hcon.2 hrq),
        if_neg (fun hcon => (Bool.eq_false_iff.mp hb) hcon.1)]
    · have hkv : keyColonValueAt line key i = some (i + (quotedKeyColon key).length) := by
        unfold keyColonValueAt
        rw [hka]
        show (if line.drop (i + (quotedKeyColon key).length) = [] then none
          else some (i + (quotedKeyColon key).length)) =
          some (i + (quotedKeyColon key).length)
        rw [if_neg (by rw [hd]; exact hrq)]
      simp only [hkv]
      unfold matchValueAt
      rw [if_pos ⟨hq, hrq⟩]
      show some (i + (quotedKeyColon key).length +
          min (wsRun ((line.drop i).drop (quotedKeyColon key).length))
            (((line.drop i).drop (quotedKeyColon key).length).length - 1), line.length) =
        some (i + (quotedKeyColon key).length +
          min (wsRun (line.drop (i + (quotedKeyColon key).length)))
            ((line.drop (i + (quotedKeyColon key).length)).length - 1), line.length)
      rw [hd]
  · have hq2 : (quotedKeyColon key).isPrefixOf (line.drop i) = false := by
      rw [Bool.eq_false_iff]; exact hq
    by_cases hb : (bareKeyColon key).isPrefixOf (line.drop i) = true
    · have hka : keyColonAt line key i = some (i + (bareKeyColon key).length) := by
        unfold keyColonAt
        rw [if_neg hq, if_pos hb]
      by_cases hrb : (line.drop i).drop (bareKeyColon key).length = []
      · have hkv : keyColonValueAt line key i = none := by
          unfold keyColonValueAt
          rw [hka]
          show (if line.drop (i + (bareKeyColon key).length) = [] then none
            else some (i + (bareKeyColon key).length)) = none
          rw [if_pos (by rw [hd]; exact hrb)]
        simp only [hkv]
        unfold matchValueAt
        rw [if_neg (fun hcon => hq hcon.1), if_neg (fun hcon => hcon.2 hrb)]
      · have hkv : keyColonValueAt line key i = some (i + (bareKeyColon key).length) := by
          unfold keyColonValueAt
          rw [hka]
          show (if line.drop (i + (bareKeyColon key).length) = [] then none
            else some (i + (bareKeyColon key).length)) =
            some (i + (bareKeyColon key).length)
          rw [if_neg (by rw [hd]; exact hrb)]
        simp only [hkv]
        unfold matchValueAt
        rw [if_neg (fun hcon => hq hcon.1), if_pos ⟨hb, hrb⟩]
        show some (i + (bareKeyColon key).length +
            min (wsRun ((line.drop i).drop (bareKeyColon key).length))
              (((line.drop i).drop (bareKeyColon key).length).length - 1), line.length) =
          some (i + (bareKeyColon key).length +
            min (wsRun (line.drop (i + (bareKeyColon key).length)))
              ((line.drop (i + (bareKeyColon key).length)).length - 1), line.length)
        rw [hd]
    · have hkv : keyColonValueAt line key i = none := by
        unfold keyColonValueAt keyColonAt
        rw [if_neg hq, if_neg hb]
        rfl
      simp only [hkv]
      unfold matchValueAt
      rw [if_neg (fun hcon => hq hcon.1), if_neg (fun hcon => hb hcon.1)]

theorem findSome?_map_inner {α β γ} (g : α → Option β) (F : β → γ) (l : List α) :
    l.findSome? (fun i => (g i).map F) = (l.findSome? g).map F := by
  induction l with
  | nil => rfl
  | cons a l ih =>
    rw [List.findSome?_cons, List.findSome?_cons]
    cases hg : g a with
    | none => simpa [hg] using ih
    | some b => simp [hg]

theorem splitFirstSub_none_of_short (pat : List Char) (hp : pat ≠ []) :
    ∀ s : List Char, s.length < pat.length → splitFirstSub pat s = none := by
  intro s
  induction s with
  | nil =>
    intro _
    unfold splitFirstSub
    rw [if_neg]
    intro hcon
    have h1 := (List.isPrefixOf_iff_prefix.mp hcon).length_le
    simp at h1
    exact hp h1
  | cons c s ih =>
    intro hlen
    have hlen2 : s.length + 1 < pat.length := by simpa using hlen
    unfold splitFirstSub
    rw [if_neg]
    · rw [ih (by omega)]
    · intro hcon
      have h1 := (List.isPrefixOf_iff_prefix.mp hcon).length_le
      simp only [List.length_cons] at h1
      omega

theorem findSubIdx_none_of_short (pat s : List Char) (hp : pat ≠ [])
    (h : s.length < pat.length) : findSubIdx pat s = none := by
  unfold findSubIdx
  rw [splitFirstSub_none_of_short pat hp s h]
  rfl

theorem dropWhile_eq_drop_takeWhile (p : Char → Bool) (l : List Char) :
    l.dropWhile p = l.drop ((l.takeWhile p).length) := by
  induction l with
  | nil => rfl
  | cons c l ih =>
    rw [List.dropWhile_cons, List.takeWhile_cons p c l]
    by_cases hc : p c = true
    · rw [if_pos hc, if_pos hc, List.length_cons, List.drop_succ_cons]
      exact ih
    · rw [if_neg hc, if_neg hc]
      rfl

theorem keyColonValueAt_some_drop_ne {line key : List Char} {i a : Nat}
    (h : keyColonValueAt line key i = some a) : line.drop a ≠ [] := by
  unfold keyColonValueAt at h
  cases hk : keyColonAt line key i with
  | none =>
    rw [hk] at h
    exact absurd h (by simp)
  | some b =>
    rw [hk] at h
    by_cases hb : line.drop b = []
    · rw [show (some b).bind (fun x => if line.drop x = [] then none else some x) = none from by
        show (if line.drop b = [] then none else some b) = none
        rw [if_pos hb]] at h
      exact absurd h (by simp)
    · rw [show (some b).bind (fun x => if line.drop x = [] then none else some x) = some b from by
        show (if line.drop b = [] then none else some b) = some b
        rw [if_neg hb]] at h
      have hba : b = a := by injection h
      rw [← hba]
      exact hb

/-- Claim C5 (amended): for every located key line, the jump target is the
value region of claim C5 except that when only whitespace follows the colon
the target is the final whitespace character of the line, and the whole-line
fallback applies only when nothing at all follows the accepted colon. -/
theorem c5_jump_target_region (line key : List Char) :
    jumpTargetOnLine line key = c5AmendedTarget line key := by
  have hscan : regexSearchValue line key =
      ((List.range (line.length + 1)).findSome? (keyColonValueAt line key)).map
        (fun a => (a + min (wsRun (line.drop a)) ((line.drop a).length - 1), line.length)) := by
    unfold regexSearchValue
    rw [← findSome?_map_inner]
    congr 1
    funext i
    rw [matchValueAt_eq_spec]
    cases keyColonValueAt line key i <;> rfl
  unfold jumpTargetOnLine valueRegionOnLine c5AmendedTarget
  rw [hscan]
  cases hv : (List.range (line.length + 1)).findSome? (keyColonValueAt line key) with
  | none => rfl
  | some a =>
    have ha : line.drop a ≠ [] := by
      rcases List.exists_of_findSome?_eq_some hv with ⟨i, _, hg⟩
      exact keyColonValueAt_some_drop_ne hg
    have hlen1 : a < line.length := by
      by_contra hge
      exact ha (List.drop_eq_nil_of_le (by omega))
    simp only [Option.map_some']
    show (match (match findSubIdx (lc " #")
          ((line.take line.length).drop
            (a + min (wsRun (line.drop a)) ((line.drop a).length - 1))) with
        | some h => some (a + min (wsRun (line.drop a)) ((line.drop a).length - 1),
            a + min (wsRun (line.drop a)) ((line.drop a).length - 1) + h)
        | none =>
          some (a + min (wsRun (line.drop a)) ((line.drop a).length - 1), line.length)) with
      | some r => r
      | none => (0, line.length)) =
      (if (line.drop a).dropWhile isWs = [] then (line.length - 1, line.length)
       else
        match findSubIdx (lc " #") ((line.drop a).dropWhile isWs) with
        | some h => (a + wsRun (line.drop a), a + wsRun (line.drop a) + h)
        | none => (a + wsRun (line.drop a), line.length))
    rw [List.take_length]
    by_cases hvw : (line.drop a).dropWhile isWs = []
    · rw [if_pos hvw]
      have hall : wsRun (line.drop a) = (line.drop a).length := by
        have h1 : (line.drop a).drop (wsRun (line.drop a)) = [] := by
          unfold wsRun
          rw [← dropWhile_eq_drop_takeWhile]
          exact hvw
        have h2 := List.drop_eq_nil_iff.mp h1
        have h3 := (List.takeWhile_prefix (l := line.drop a) isWs).length_le
        unfold wsRun
        unfold wsRun at h2
        omega
      have hstart : a + min (wsRun (line.drop a)) ((line.drop a).length - 1) =
          line.length - 1 := by
        rw [hall, List.length_drop]
        omega
      rw [hstart]
      rw [findSubIdx_none_of_short (lc " #") (line.drop (line.length - 1)) (by decide)
        (by rw [List.length_drop]; have h2 : (lc " #").length = 2 := rfl; omega)]
    · rw [if_neg hvw]
      have hlt : wsRun (line.drop a) < (line.drop a).length := by
        have h1 : ¬ ((line.drop a).length ≤ wsRun (line.drop a)) := by
          intro hge
          apply hvw
          rw [dropWhile_eq_drop_takeWhile]
          exact List.drop_eq_nil_of_le (by unfold wsRun at hge; exact hge)
        have h3 := (List.takeWhile_prefix (l := line.drop a) isWs).length_le
        omega
      have hmin : min (wsRun (line.drop a)) ((line.drop a).length - 1) =
          wsRun (line.drop a) := by omega
      rw [hmin]
      have hval : line.drop (a + wsRun (line.drop a)) = (line.drop a).dropWhile isWs := by
        rw [dropWhile_eq_drop_takeWhile, List.drop_drop]
        rfl
      rw [hval]
      cases hfs : findSubIdx (lc " #") ((line.drop a).dropWhile isWs) <;> rfl

/-- Ruby and Python tr of one character for another, applied to every
occurrence. -/
def trChar (a b : Char) (s : List Char) : List Char :=
  s.map (fun c => if c = a then b else c)

/-- Lower-casing of a name (Python str.lower restricted to ASCII). -/
def lowerL (s : List Char) : List Char := s.map Char.toLower

/-- Python name.lower().endswith applied to the .yml extension (line 131). -/
def lowerEndsWithYml (name : List Char) : Bool := endsWithL (lowerL name) (lc ".yml")

/-- The optional subtag part of the locale regex: nothing, or a dash or
underscore followed by a nonempty alphanumeric run. -/
def localeTail : List Char → Bool
  | [] => true
  | c :: rest => (c = '-' || c = '_') && rest ≠ [] && rest.all (fun d => d.isAlpha || d.isDigit)

/-- Full match of the locale regex (lines 135 and 142): two or three letters,
optionally followed by a separator and an alphanumeric subtag. -/
def matchesLocale (s : List Char) : Bool :=
  ((s.take 3).all Char.isAlpha && 3 ≤ s.length && localeTail (s.drop 3)) ||
  ((s.take 2).all Char.isAlpha && 2 ≤ s.length && localeTail (s.drop 2))

/-- Split of a name at its last dot (the greedy dot-anything prefix of the
extra-locale regex): the parts before and after that dot. -/
def lastDotSplit (b : List Char) : Option (List Char × List Char) :=
  match b.reverse.findIdx? (fun c => c = '.') with
  | none => none
  | some k =>
    let d := b.length - 1 - k
    some (b.take d, b.drop (d + 1))

/-- Match of the extra-locale regex (line 142) against a stem: a nonempty
prefix, a dot, then the locale pattern reaching the end; the captured locale
is the part after the last dot. -/
def extraLocOf (base : List Char) : Option (List Char) :=
  match lastDotSplit base with
  | some p => if p.1 ≠ [] ∧ matchesLocale p.2 then some p.2 else none
  | none => none

/-- Two-argument os.path.join with posix separators. -/
def pathJoin (dir name : List Char) : List Char :=
  match name with
  | '/' :: _ => name
  | _ =>
    if dir = [] then name
    else if dir.getLast? = some '/' then dir ++ name
    else dir ++ '/' :: name

/-- Association list lookup at the first matching key (dictionary read). -/
def assocGet {β : Type} : List (List Char × β) → List Char → Option β
  | [], _ => none
  | (k2, v) :: rest, k => if k2 = k then some v else assocGet rest k

/-- Association list update: replace the value at the first matching key, or
append the pair (dictionary write). -/
def assocSet {β : Type} : List (List Char × β) → List Char → β → List (List Char × β)
  | [], k, v => [(k, v)]
  | (k2, v2) :: rest, k, v =>
    if k2 = k then (k2, v) :: rest else (k2, v2) :: assocSet rest k v

/-- Set insertion preserving first-insertion order (Python set add). -/
def insertNew (l : List (List Char)) (x : List Char) : List (List Char) :=
  if x ∈ l then l else l ++ [x]

/-- Sorting of strings in ascending code point order (Python sorted, Ruby
Array sort). -/
def sortLex (l : List (List Char)) : List (List Char) :=
  l.insertionSort (fun a b => a ≤ b)

theorem assocGet_assocSet_self {β : Type} (es : List (List Char × β)) (k : List Char) (v : β) :
    assocGet (assocSet es k v) k = some v := by
  induction es with
  | nil => simp [assocSet, assocGet]
  | cons p rest ih =>
    by_cases hk : p.1 = k
    · simp [assocSet, assocGet, hk]
    · simp [assocSet, assocGet, hk, ih]

theorem assocGet_assocSet_ne {β : Type} (es : List (List Char × β)) (k k2 : List Char) (v : β)
    (h : k2 ≠ k) : assocGet (assocSet es k v) k2 = assocGet es k2 := by
  have hkk : ¬ (k = k2) := fun he => h he.symm
  induction es with
  | nil => simp [assocSet, assocGet, hkk]
  | cons p rest ih =>
    by_cases hk : p.1 = k
    · have hp2 : ¬ (p.1 = k2) := by rw [hk]; exact hkk
      simp [assocSet, assocGet, hk, hp2, hkk]
    · by_cases hk2 : p.1 = k2
      · simp [assocSet, assocGet, hk, hk2, h]
      · simp [assocSet, assocGet, hk, hk2, ih]

theorem mem_insertNew (l : List (List Char)) (x y : List Char) :
    y ∈ insertNew l x ↔ y ∈ l ∨ y = x := by
  unfold insertNew
  by_cases hx : x ∈ l
  · rw [if_pos hx]
    constructor
    · exact fun h => Or.inl h
    · rintro (h | rfl)
      · exact h
      · exact hx
  · rw [if_neg hx]
    simp

theorem nodup_insertNew (l : List (List Char)) (x : List Char) (h : l.Nodup) :
    (insertNew l x).Nodup := by
  unfold insertNew
  by_cases hx : x ∈ l
  · rw [if_pos hx]; exact h
  · rw [if_neg hx]
    rw [List.nodup_append]
    exact ⟨h, List.nodup_singleton x, by simpa using fun hcon => hx hcon⟩

theorem sortLex_eq_of_perm (l₁ l₂ : List (List Char)) (h : l₁ ~ l₂) :
    sortLex l₁ = sortLex l₂ := by
  unfold sortLex
  exact List.eq_of_perm_of_sorted
    ((List.perm_insertionSort _ l₁).trans (h.trans (List.perm_insertionSort _ l₂).symm))
    (List.sorted_insertionSort _ l₁) (List.sorted_insertionSort _ l₂)

/-- Normalized locale recognised from a file name, following the claim text
with the splitext amendment: the stem is the name without its final
extension (with the splitext leading-dots exception); a locale comes from a
stem that fully matches the locale pattern, or from the part after the last
dot of the stem when something precedes that dot. -/
def recognizedNorm (name : List Char) : Option (List Char) :=
  if lowerEndsWithYml name then
    let base := (splitextL name).1
    if matchesLocale base then some (trChar '_' '-' base)
    else
      match extraLocOf base with
      | some loc => some (trChar '_' '-' loc)
      | none => none
  else none

/-- Whether a file name is a primary locale file for the normalized locale. -/
def isPrimaryFor (name ℓ : List Char) : Bool :=
  lowerEndsWithYml name && matchesLocale (splitextL name).1 &&
    (trChar '_' '-' (splitextL name).1 == ℓ)

/-- One step of the listdir loop of list_locales (lines 130-145): the state
carries the primary-path dictionary and the seen-locale set in insertion
order. -/
def llStep (dir : List Char) (st : List (List Char × List Char) × List (List Char))
    (name : List Char) : List (List Char × List Char) × List (List Char) :=
  if !lowerEndsWithYml name then st
  else
    let base := (splitextL name).1
    if matchesLocale base then
      let loc := trChar '_' '-' base
      (assocSet st.1 loc (pathJoin dir name), insertNew st.2 loc)
    else
      match extraLocOf base with
      | some loc0 => (st.1, insertNew st.2 (trChar '_' '-' loc0))
      | none => st

/-- Translation of list_locales (lines 117-151): scan the directory entries,
then pair each seen locale (sorted) with its primary path or the default
path.  The directory is modelled by its existence flag and its entry list in
listdir order. -/
def list_locales (isDir : Bool) (dir : List Char) (names : List (List Char)) :
    List (List Char × List Char) :=
  if !isDir then []
  else
    let st := names.foldl (llStep dir) ([], [])
    (sortLex st.2).map (fun loc =>
      (loc, (assocGet st.1 loc).getD (pathJoin dir (loc ++ lc ".yml"))))

/-- Amended specification of list_locales following claim C6: one pair per
distinct recognised locale in sorted order, paired with the last primary file
seen for it, or the default path when none was seen. -/
def c6AmendedSpec (isDir : Bool) (dir : List Char) (names : List (List Char)) :
    List (List Char × List Char) :=
  if !isDir then []
  else
    (sortLex ((names.filterMap recognizedNorm).dedup)).map (fun ℓ =>
      (ℓ, match (names.filter (fun n => isPrimaryFor n ℓ)).getLast? with
          | some n => pathJoin dir n
          | none => pathJoin dir (ℓ ++ lc ".yml")))

/-- Locale recognition exactly as claim C6 states it: the stem is the name
with the four characters of the .yml extension removed. -/
def c6OrigRecognized (name : List Char) : Option (List Char) :=
  if lowerEndsWithYml name then
    let stem := name.take (name.length - 4)
    if matchesLocale stem then some (trChar '_' '-' stem)
    else
      match extraLocOf stem with
      | some loc => some (trChar '_' '-' loc)
      | none => none
  else none

/-- Specification of list_locales exactly as claim C6 states it. -/
def c6OrigSpec (isDir : Bool) (dir : List Char) (names : List (List Char)) :
    List (List Char × List Char) :=
  if !isDir then []
  else
    (sortLex ((names.filterMap c6OrigRecognized).dedup)).map (fun ℓ =>
      (ℓ, match (names.filter (fun n => lowerEndsWithYml n &&
            matchesLocale (n.take (n.length - 4)) &&
            (trChar '_' '-' (n.take (n.length - 4)) == ℓ))).getLast? with
          | some n => pathJoin dir n
          | none => pathJoin dir (ℓ ++ lc ".yml")))

/-- Claim C6, counterexample: a file named with two dots and yml is split by
splitext into an empty extension, so its full name feeds the extra-locale
regex and the bogus locale yml is recognised, while the claim text
(name patterns anchored before the .yml extension) recognises nothing. -/
theorem c6_counterexample :
    list_locales true (lc "d") [lc "..yml"] = [(lc "yml", pathJoin (lc "d") (lc "yml.yml"))] ∧
    c6OrigSpec true (lc "d") [lc "..yml"] = [] ∧
    list_locales true (lc "d") [lc "..yml"] ≠ c6OrigSpec true (lc "d") [lc "..yml"] :=
  ⟨by decide, by decide, by decide⟩

theorem getLast?_cons_of_some {α} (a : α) (l : List α) (m : α) (h : l.getLast? = some m) :
    (a :: l).getLast? = some m := by
  cases l with
  | nil => simp at h
  | cons b t => rw [List.getLast?_cons_cons]; exact h

theorem getLast?_none_iff_nil {α} (l : List α) : l.getLast? = none ↔ l = [] := by
  cases l with
  | nil => simp
  | cons b t =>
    constructor
    · intro h
      exfalso
      induction t generalizing b with
      | nil => simp at h
      | cons c t ih =>
        rw [List.getLast?_cons_cons] at h
        exact ih c h
    · intro h
      exact absurd h (by simp)

theorem llStep_snd_mem (dir : List Char) (st : List (List Char × List Char) × List (List Char))
    (n x : List Char) :
    x ∈ (llStep dir st n).2 ↔ x ∈ st.2 ∨ recognizedNorm n = some x := by
  unfold llStep recognizedNorm
  by_cases hy : lowerEndsWithYml n = true
  · simp only [hy, Bool.not_true, Bool.false_eq_true, if_false, if_true]
    by_cases hm : matchesLocale (splitextL n).1 = true
    · simp only [hm, if_true]
      rw [mem_insertNew]
      constructor
      · rintro (h | rfl)
        · exact Or.inl h
        · exact Or.inr rfl
      · rintro (h | h)
        · exact Or.inl h
        · exact Or.inr (by injection h with h2; exact h2.symm)
    · simp only [hm, Bool.false_eq_true, if_false]
      cases he : extraLocOf (splitextL n).1 with
      | none => simp
      | some loc0 =>
        simp only
        rw [mem_insertNew]
        constructor
        · rintro (h | rfl)
          · exact Or.inl h
          · exact Or.inr rfl
        · rintro (h | h)
          · exact Or.inl h
          · exact Or.inr (by injection h with h2; exact h2.symm)
  · simp only [Bool.not_eq_true] at hy
    simp [hy]

theorem llStep_fold_snd_mem (dir : List Char) :
    ∀ (names : List (List Char)) (st : List (List Char × List Char) × List (List Char))
      (x : List Char),
      x ∈ (names.foldl (llStep dir) st).2 ↔
        x ∈ st.2 ∨ x ∈ names.filterMap recognizedNorm := by
  intro names
  induction names with
  | nil => intro st x; simp
  | cons n names ih =>
    intro st x
    rw [List.foldl_cons, ih (llStep dir st n) x, llStep_snd_mem]
    rw [List.filterMap_cons]
    cases hr : recognizedNorm n with
    | none => simp [hr]
    | some y =>
      simp only [List.mem_cons]
      constructor
      · rintro ((h | h) | h)
        · exact Or.inl h
        · exact Or.inr (Or.inl (by injection h with h2; exact h2.symm))
        · exact Or.inr (Or.inr h)
      · rintro (h | (h | h))
        · exact Or.inl (Or.inl h)
        · exact Or.inl (Or.inr (by rw [h]))
        · exact Or.inr h

theorem llStep_snd_nodup (dir : List Char) (st : List (List Char × List Char) × List (List Char))
    (n : List Char) (h : st.2.Nodup) : (llStep dir st n).2.Nodup := by
  unfold llStep
  by_cases hy : lowerEndsWithYml n = true
  · simp only [hy, Bool.not_true, Bool.false_eq_true, if_false]
    by_cases hm : matchesLocale (splitextL n).1 = true
    · simp only [hm, if_true]
      exact nodup_insertNew _ _ h
    · simp only [hm, Bool.false_eq_true, if_false]
      cases he : extraLocOf (splitextL n).1 with
      | none => exact h
      | some loc0 => exact nodup_insertNew _ _ h
  · simp only [Bool.not_eq_true] at hy
    simp [hy]
    exact h

theorem llStep_fold_snd_nodup (dir : List Char) :
    ∀ (names : List (List Char)) (st : List (List Char × List Char) × List (List Char)),
      st.2.Nodup → (names.foldl (llStep dir) st).2.Nodup := by
  intro names
  induction names with
  | nil => intro st h; exact h
  | cons n names ih =>
    intro st h
    rw [List.foldl_cons]
    exact ih (llStep dir st n) (llStep_snd_nodup dir st n h)

theorem llStep_fst_of_primary (dir : List Char)
    (st : List (List Char × List Char) × List (List Char)) (n ℓ : List Char)
    (hp : isPrimaryFor n ℓ = true) :
    (llStep dir st n).1 = assocSet st.1 ℓ (pathJoin dir n) := by
  unfold isPrimaryFor at hp
  rw [Bool.and_eq_true, Bool.and_eq_true] at hp
  obtain ⟨⟨h1, h2⟩, h3⟩ := hp
  unfold llStep
  simp only [h1, Bool.not_true, Bool.false_eq_true, if_false, h2, if_true]
  rw [beq_iff_eq] at h3
  rw [h3]

theorem llStep_fst_of_not_primary (dir : List Char)
    (st : List (List Char × List Char) × List (List Char)) (n ℓ : List Char)
    (hp : isPrimaryFor n ℓ = false) :
    assocGet (llStep dir st n).1 ℓ = assocGet st.1 ℓ := by
  unfold llStep
  by_cases hy : lowerEndsWithYml n = true
  · simp only [hy, Bool.not_true, Bool.false_eq_true, if_false]
    by_cases hm : matchesLocale (splitextL n).1 = true
    · simp only [hm, if_true]
      have hne : trChar '_' '-' (splitextL n).1 ≠ ℓ := by
        intro he
        unfold isPrimaryFor at hp
        rw [hy, hm] at hp
        simp [he] at hp
      exact assocGet_assocSet_ne _ _ _ _ (fun he => hne he.symm)
    · simp only [hm, Bool.false_eq_true, if_false]
      cases he : extraLocOf (splitextL n).1 with
      | none => rfl
      | some loc0 => rfl
  · simp only [Bool.not_eq_true] at hy
    simp [hy]

theorem llStep_fold_fst (dir ℓ : List Char) :
    ∀ (names : List (List Char)) (st : List (List Char × List Char) × List (List Char)),
      assocGet (names.foldl (llStep dir) st).1 ℓ =
        match (names.filter (fun n => isPrimaryFor n ℓ)).getLast? with
        | some n => some (pathJoin dir n)
        | none => assocGet st.1 ℓ := by
  intro names
  induction names with
  | nil => intro st; rfl
  | cons n names ih =>
    intro st
    rw [List.foldl_cons, ih (llStep dir st n), List.filter_cons]
    by_cases hp : isPrimaryFor n ℓ = true
    · rw [if_pos hp]
      cases hfl : (names.filter (fun n => isPrimaryFor n ℓ)).getLast? with
      | some m =>
        rw [getLast?_cons_of_some n _ m hfl]
      | none =>
        rw [(getLast?_none_iff_nil _).mp hfl]
        rw [show ([n] : List (List Char)).getLast? = some n from rfl]
        rw [llStep_fst_of_primary dir st n ℓ hp]
        rw [assocGet_assocSet_self]
    · rw [Bool.not_eq_true] at hp
      rw [if_neg (by rw [hp]; exact Bool.false_ne_true)]
      cases hfl : (names.filter (fun n => isPrimaryFor n ℓ)).getLast? with
      | some m => rfl
      | none =>
        rw [llStep_fst_of_not_primary dir st n ℓ hp]

/-- Claim C6 (amended): for every directory, list_locales returns one pair
per distinct locale recognised from a primary name (stem fully matching the
locale pattern) or extra name (stem with a nonempty part before its last dot
and the locale pattern after it), where the stem drops the final extension
with splitext semantics (a file named with only dots before yml is therefore
recognised as locale yml); locale names have underscores replaced by dashes,
the list is sorted, each locale appears once, and the paired path is the last
seen primary file or the default path; a non-directory gives the empty
list. -/
theorem c6_list_locales (isDir : Bool) (dir : List Char) (names : List (List Char)) :
    list_locales isDir dir names = c6AmendedSpec isDir dir names := by
  unfold list_locales c6AmendedSpec
  cases isDir with
  | false => rfl
  | true =>
    rw [if_neg (by decide), if_neg (by decide)]
    show (sortLex (names.foldl (llStep dir) ([], [])).2).map
        (fun loc => (loc, (assocGet (names.foldl (llStep dir) ([], [])).1 loc).getD
          (pathJoin dir (loc ++ lc ".yml")))) =
      (sortLex ((names.filterMap recognizedNorm).dedup)).map
        (fun ℓ => (ℓ, match (names.filter (fun n => isPrimaryFor n ℓ)).getLast? with
            | some n => pathJoin dir n
            | none => pathJoin dir (ℓ ++ lc ".yml")))
    have hperm : (names.foldl (llStep dir) ([], [])).2 ~ (names.filterMap recognizedNorm).dedup := by
      rw [List.perm_ext_iff_of_nodup
        (llStep_fold_snd_nodup dir names ([], []) List.nodup_nil)
        (List.nodup_dedup _)]
      intro x
      rw [llStep_fold_snd_mem dir names ([], []) x, List.mem_dedup]
      simp
    rw [sortLex_eq_of_perm _ _ hperm]
    apply List.map_congr_left
    intro ℓ _
    rw [llStep_fold_fst dir ℓ names ([], [])]
    cases hfl : (names.filter (fun n => isPrimaryFor n ℓ)).getLast? with
    | some m => rfl
    | none => rfl

/-- The steps of the edit command named by claim C7. -/
inductive RunStep where
  | locateRoot
  | resolveKey
  | enumerateLocales
  | readWrite
  | updateUi
  deriving DecidableEq

/-- Abstract outcome environment for one invocation of
I18nRailsEditKeyCommand.run (lines 407-466): one flag per stage that can
fail.  The key extraction at line 411 is a precondition of the command, not
one of the five claimed steps; resolution (step c) is the relative-key
resolution of lines 428-435, entered only for keys starting with a dot. -/
structure RunEnv where
  keyRelative : Bool
  rootOk : Bool
  localesDirOk : Bool
  resolveOk : Bool
  localesNonempty : Bool
  fetchOk : Bool
  promptsDone : Bool
  deriving DecidableEq

/-- The trace tail from the enumeration step on (lines 437-466 and the write
path): enumerate locales, then fetch and write via the Ruby scripts, then the
final status update. -/
def runTailC7 (e : RunEnv) : List RunStep :=
  [RunStep.enumerateLocales] ++
    (if e.localesNonempty then
      [RunStep.readWrite] ++
        (if e.fetchOk && e.promptsDone then [RunStep.updateUi] else [])
    else [])

/-- Step trace of run (lines 407-466) at the granularity of claim C7: root
location (417), locales directory check (422), relative-key resolution
(428-435), locale enumeration (437), script fetch and write (444, 498), final
status (502); a failing stage returns, so nothing later is emitted. -/
def runTraceC7 (e : RunEnv) : List RunStep :=
  [RunStep.locateRoot] ++
    (if e.rootOk && e.localesDirOk then
      (if e.keyRelative then
        [RunStep.resolveKey] ++ (if e.resolveOk then runTailC7 e else [])
      else runTailC7 e)
    else [])

/-- The step order asserted by claim C7. -/
def c7ClaimOrder : List RunStep :=
  [RunStep.locateRoot, RunStep.enumerateLocales, RunStep.resolveKey,
   RunStep.readWrite, RunStep.updateUi]

/-- The order the code actually performs: resolution before enumeration. -/
def c7ActualOrder (e : RunEnv) : List RunStep :=
  [RunStep.locateRoot] ++ (if e.keyRelative then [RunStep.resolveKey] else []) ++
    [RunStep.enumerateLocales, RunStep.readWrite, RunStep.updateUi]

/-- Number of steps of the actual order performed before the first failure. -/
def c7TakeCount (e : RunEnv) : Nat :=
  if !(e.rootOk && e.localesDirOk) then 1
  else if e.keyRelative && !e.resolveOk then 2
  else
    (if e.keyRelative then 1 else 0) +
      (if !e.localesNonempty then 2
       else if !(e.fetchOk && e.promptsDone) then 3 else 4)

/-- The all-success environment with a relative key. -/
def c7AllOk : RunEnv := ⟨true, true, true, true, true, true, true⟩

/-- Claim C7, counterexample: in a fully successful invocation with a
relative key the trace resolves the key before enumerating locale files, so
it is not a prefix of the claimed order (a)(b)(c)(d)(e). -/
theorem c7_counterexample :
    runTraceC7 c7AllOk = [RunStep.locateRoot, RunStep.resolveKey,
      RunStep.enumerateLocales, RunStep.readWrite, RunStep.updateUi] ∧
    (runTraceC7 c7AllOk).isPrefixOf c7ClaimOrder = false :=
  ⟨by decide, by decide⟩

/-- Claim C7 (amended): every invocation of the edit command performs its
steps in the order (a) locate project root, then (c) resolve the key text
(when the key is relative), then (b) enumerate locale files, then (d) read
and write values via the embedded scripts, then (e) update the UI; when a
stage fails the trace is the prefix of this order up to and including the
failed stage. -/
theorem c7_run_order (e : RunEnv) :
    runTraceC7 e = (c7ActualOrder e).take (c7TakeCount e) := by
  cases e with
  | mk kr ro ld rs ln fo pd =>
    cases kr <;> cases ro <;> cases ld <;> cases rs <;> cases ln <;> cases fo <;> cases pd <;>
      rfl

/-- Response of the user to one input prompt. -/
inductive PromptResp where
  | submit (v : List Char)
  | cancel
  deriving DecidableEq

/-- Outcome of the prompt chain: the collected values, whether the write
script ran, and how many prompts were shown. -/
structure PromptOutcome where
  values : List (List Char × List Char)
  wroteFiles : Bool
  promptsShown : Nat
  deriving DecidableEq

/-- Translation of the prompt chain _prompt_next_locale, _on_input,
_on_cancel and _write_values (lines 468-502): each prompt either records the
value and advances, or cancellation clears the values and stops the chain;
when the chain passes the last locale, the write script runs unless the
collected values are empty. -/
def promptFlowAux (resps : Nat → PromptResp) :
    List (List Char) → Nat → List (List Char × List Char) → PromptOutcome
  | [], idx, vals => ⟨vals, vals ≠ [], idx⟩
  | loc :: rest, idx, vals =>
    match resps idx with
    | PromptResp.submit v => promptFlowAux resps rest (idx + 1) (assocSet vals loc v)
    | PromptResp.cancel => ⟨[], false, idx + 1⟩

/-- The prompt chain started by run at line 466. -/
def promptFlow (locales : List (List Char)) (resps : Nat → PromptResp) : PromptOutcome :=
  promptFlowAux resps locales 0 []

theorem promptFlowAux_cancel (resps : Nat → PromptResp) :
    ∀ (ls : List (List Char)) (idx : Nat) (vals : List (List Char × List Char)) (j : Nat),
      j < ls.length → resps (idx + j) = PromptResp.cancel →
      (∀ i, i < j → resps (idx + i) ≠ PromptResp.cancel) →
      promptFlowAux resps ls idx vals = ⟨[], false, idx + j + 1⟩ := by
  intro ls
  induction ls with
  | nil =>
    intro idx vals j hj _ _
    exact absurd hj (by simp)
  | cons loc rest ih =>
    intro idx vals j hj hc hfirst
    cases j with
    | zero =>
      unfold promptFlowAux
      rw [show idx + 0 = idx from rfl] at hc
      rw [hc]
    | succ j2 =>
      have h0 : resps idx ≠ PromptResp.cancel := by
        have := hfirst 0 (Nat.succ_pos j2)
        rw [Nat.add_zero] at this
        exact this
      unfold promptFlowAux
      cases hr : resps idx with
      | cancel => exact absurd hr h0
      | submit v =>
        have hrec := ih (idx + 1) (assocSet vals loc v) j2
          (by simpa using Nat.lt_of_succ_lt_succ hj)
          (by rw [show idx + 1 + j2 = idx + (j2 + 1) from by omega]; exact hc)
          (by
            intro i hi
            rw [show idx + 1 + i = idx + (i + 1) from by omega]
            exact hfirst (i + 1) (by omega))
        show promptFlowAux resps rest (idx + 1) (assocSet vals loc v) =
          ({ values := [], wroteFiles := false, promptsShown := idx + (j2 + 1) + 1 } :
            PromptOutcome)
        rw [hrec]
        rw [show idx + 1 + j2 + 1 = idx + (j2 + 1) + 1 from by omega]

/-- Claim C8: if the user cancels the input prompt at some locale (the first
cancellation being at prompt j), the write script never runs, the collected
values are cleared, and the prompt chain stops right after that prompt. -/
theorem c8_cancel_no_write (locales : List (List Char)) (resps : Nat → PromptResp)
    (j : Nat) (hj : j < locales.length) (hc : resps j = PromptResp.cancel)
    (hfirst : ∀ i, i < j → resps i ≠ PromptResp.cancel) :
    (promptFlow locales resps).wroteFiles = false ∧
    (promptFlow locales resps).values = [] ∧
    (promptFlow locales resps).promptsShown = j + 1 := by
  unfold promptFlow
  rw [promptFlowAux_cancel resps locales 0 [] j hj (by simpa using hc)
    (by intro i hi; simpa using hfirst i hi)]
  exact ⟨rfl, rfl, by simp⟩

/-- A response sequence that submits once and then cancels. -/
def c8RespsW : Nat → PromptResp :=
  fun i => if i = 0 then PromptResp.submit (lc "x") else PromptResp.cancel

theorem c8_cancel_no_write_witness :
    (promptFlow [lc "en", lc "fr"] c8RespsW).wroteFiles = false ∧
    (promptFlow [lc "en", lc "fr"] c8RespsW).values = [] ∧
    (promptFlow [lc "en", lc "fr"] c8RespsW).promptsShown = 2 :=
  c8_cancel_no_write [lc "en", lc "fr"] c8RespsW 1 (by decide) (by decide)
    (by intro i hi; cases i with | zero => decide | succ m => exact absurd hi (by omega))

/-- Removal of trailing slashes (Python str.rstrip applied to the
separator). -/
def stripTrailingSlashes (s : List Char) : List Char :=
  (s.reverse.dropWhile (fun c => c = '/')).reverse

/-- Translation of posix os.path.dirname: everything up to and including the
last slash, with trailing slashes then removed unless the head consists only
of slashes. -/
def pyDirname (p : List Char) : List Char :=
  match p.reverse.findIdx? (fun c => c = '/') with
  | none => []
  | some k =>
    let head := p.take (p.length - k)
    if head.all (fun c => c = '/') then head else stripTrailingSlashes head

theorem findIdx?_some_spec {α} (q : α → Bool) (l : List α) (k : Nat)
    (h : l.findIdx? q = some k) : k < l.length ∧ ((l[k]?).map q).getD false = true := by
  rw [findIdx?_eq_find?_range] at h
  have h1 := List.find?_some h
  have h2 := List.mem_of_find?_eq_some h
  rw [List.mem_range] at h2
  exact ⟨h2, h1⟩

theorem length_dropWhile_le_local (p : Char → Bool) (l : List Char) :
    (l.dropWhile p).length ≤ l.length := by
  rw [dropWhile_eq_drop_takeWhile, List.length_drop]
  omega

theorem stripTrailingSlashes_length_lt (s : List Char)
    (hlast : s.getLast? = some '/') : (stripTrailingSlashes s).length < s.length := by
  unfold stripTrailingSlashes
  rw [List.length_reverse]
  have hrev : s.reverse.head? = some '/' := by rw [List.head?_reverse]; exact hlast
  cases hr : s.reverse with
  | nil => rw [hr] at hrev; exact absurd hrev (by simp)
  | cons c t =>
    rw [hr] at hrev
    have hc : c = '/' := by simpa using hrev
    subst hc
    rw [List.dropWhile_cons, if_pos (by decide)]
    have h3 := length_dropWhile_le_local (fun c => c = '/') t
    have h4 : s.length = t.length + 1 := by
      rw [← List.length_reverse s, hr]
      rfl
    omega

theorem pyDirname_lt (p : List Char) (hne : p ≠ []) (hloop : pyDirname p ≠ p) :
    (pyDirname p).length < p.length := by
  unfold pyDirname
  unfold pyDirname at hloop
  cases hk : p.reverse.findIdx? (fun c => c = '/') with
  | none =>
    simp only [hk]
    have : 0 < p.length := List.length_pos_of_ne_nil hne
    simpa using this
  | some k =>
    simp only [hk] at hloop ⊢
    obtain ⟨hklt, hkp⟩ := findIdx?_some_spec _ _ _ hk
    rw [List.length_reverse] at hklt
    have hilen : p.length - k ≤ p.length := by omega
    have hheadlen : (p.take (p.length - k)).length = p.length - k := by
      rw [List.length_take]
      omega
    by_cases hall : (p.take (p.length - k)).all (fun c => c = '/') = true
    · rw [if_pos hall] at hloop ⊢
      have htne : p.take (p.length - k) ≠ p := hloop
      have hlt : p.length - k < p.length := by
        by_contra hge
        have hik : p.length - k = p.length := by omega
        rw [hik, List.take_length] at htne
        exact htne rfl
      omega
    · rw [if_neg hall] at hloop ⊢
      have hslash : (p.take (p.length - k)).getLast? = some '/' := by
        have hrev : (p.reverse)[k]? = some '/' := by
          cases hge : (p.reverse)[k]? with
          | none => rw [hge] at hkp; exact absurd hkp (by simp)
          | some c =>
            rw [hge] at hkp
            simp only [Option.map_some', Option.getD_some] at hkp
            rw [of_decide_eq_true hkp]
        have hgr : (p.reverse)[k]? = p[p.length - 1 - k]? :=
          List.getElem?_reverse (by simpa using hklt)
        rw [hgr] at hrev
        rw [List.getLast?_eq_getElem?, hheadlen, List.getElem?_take]
        rw [if_pos (by omega)]
        rw [show p.length - k - 1 = p.length - 1 - k from by omega]
        exact hrev
      have := stripTrailingSlashes_length_lt (p.take (p.length - k)) hslash
      omega

set_option linter.unusedVariables false in
/-- The upward walk of find_project_root (lines 20-27): test the current
path, then move to its parent, stopping when the path is empty or its parent
equals it. -/
def rootLoop (hasMarker : List Char → Bool) (p : List Char) : Option (List Char) :=
  if hp : p = [] then none
  else if hasMarker p then some p
  else
    if hpp : pyDirname p = p then none
    else rootLoop hasMarker (pyDirname p)
termination_by p.length
decreasing_by exact pyDirname_lt p hp hpp

set_option linter.unusedVariables false in
/-- The chain of paths the upward walk visits, deepest first. -/
def ancestorChain (p : List Char) : List (List Char) :=
  if p = [] then []
  else p :: (if h : pyDirname p = p then [] else ancestorChain (pyDirname p))
termination_by p.length
decreasing_by exact pyDirname_lt p (by assumption) h

/-- The marker subdirectory config/locales (line 14). -/
def markerSubpath : List Char := lc "config/locales"

/-- Translation of find_project_root (lines 14-35).  The file system is
modelled by the isfile and isdir predicates, and the open editor folders by
the folders list. -/
def find_project_root (isfile isdir : List Char → Bool) (folders : List (List Char))
    (startPath : List Char) : Option (List Char) :=
  let path0 := if startPath ≠ [] ∧ isfile startPath then pyDirname startPath else startPath
  match rootLoop (fun q => isdir (pathJoin q markerSubpath)) path0 with
  | some p => some p
  | none => folders.find? (fun f => isdir (pathJoin f markerSubpath))

/-- Specification following claim C10: the result is the deepest ancestor of
the start path (the first element of the upward chain) containing an existing
config/locales subdirectory, and when no ancestor qualifies, the first open
editor folder that does. -/
def c10Spec (isfile isdir : List Char → Bool) (folders : List (List Char))
    (startPath : List Char) : Option (List Char) :=
  let path0 := if startPath ≠ [] ∧ isfile startPath then pyDirname startPath else startPath
  match (ancestorChain path0).find? (fun q => isdir (pathJoin q markerSubpath)) with
  | some q => some q
  | none => folders.find? (fun f => isdir (pathJoin f markerSubpath))

theorem rootLoop_eq_chain_bounded (g : List Char → Bool) :
    ∀ (n : Nat) (p : List Char), p.length ≤ n →
      rootLoop g p = (ancestorChain p).find? g := by
  intro n
  induction n with
  | zero =>
    intro p hlen
    have hp : p = [] := List.eq_nil_of_length_eq_zero (by omega)
    rw [hp]
    unfold rootLoop ancestorChain
    rw [dif_pos rfl, if_pos rfl]
    rfl
  | succ n ih =>
    intro p hlen
    by_cases hp : p = []
    · rw [hp]
      unfold rootLoop ancestorChain
      rw [dif_pos rfl, if_pos rfl]
      rfl
    · unfold rootLoop ancestorChain
      rw [dif_neg hp, if_neg hp]
      by_cases hm : g p = true
      · rw [if_pos hm, List.find?_cons_of_pos _ hm]
      · rw [Bool.not_eq_true] at hm
        rw [if_neg (by rw [hm]; exact Bool.false_ne_true),
          List.find?_cons_of_neg _ (by rw [hm]; exact Bool.false_ne_true)]
        by_cases hpp : pyDirname p = p
        · rw [dif_pos hpp, dif_pos hpp]
          rfl
        · rw [dif_neg hpp, dif_neg hpp]
          exact ih (pyDirname p) (by have := pyDirname_lt p hp hpp; omega)

theorem rootLoop_eq_chain (g : List Char → Bool) (p : List Char) :
    rootLoop g p = (ancestorChain p).find? g :=
  rootLoop_eq_chain_bounded g p.length p (Nat.le_refl _)

/-- Claim C10: find_project_root returns either none or a path that contains
an existing config/locales subdirectory at the time of the check; the path is
the deepest ancestor of the start path (walking upward from the directory of
a file argument) that qualifies, and when no ancestor qualifies it is the
first open editor folder that does. -/
theorem c10_find_project_root (isfile isdir : List Char → Bool)
    (folders : List (List Char)) (startPath : List Char) :
    find_project_root isfile isdir folders startPath =
      c10Spec isfile isdir folders startPath := by
  simp only [find_project_root, c10Spec, rootLoop_eq_chain]

/-- Parsed YAML value: a string scalar, a mapping with string keys (Ruby
Symbol keys are collapsed into strings, which the scripts do themselves via
the to_s and to_sym fallbacks), or any other value (numbers, arrays, nil). -/
inductive YVal where
  | str (s : List Char)
  | map (es : List (List Char × YVal))
  | other

/-- A locale file of the locales directory: its base name and its parsed
top-level mapping (safe_load_yaml returns an empty mapping for empty or
unreadable files). -/
structure YFile where
  name : List Char
  entries : List (List Char × YVal)

/-- Translation of deep_get of the fetch script (lines 257-274): walk the
mapping along the keys, nil when a key is missing or a non-mapping is
reached. -/
def deepGet : YVal → List (List Char) → Option YVal
  | v, [] => some v
  | YVal.map es, k :: ks =>
    match assocGet es k with
    | some v => deepGet v ks
    | none => none
  | YVal.str _, _ :: _ => none
  | YVal.other, _ :: _ => none

/-- Ruby String split on a dot, which drops trailing empty fields
(line 255 of the script, key_path.split). -/
def rubySplitDots (s : List Char) : List (List Char) :=
  ((splitCharL '.' s).reverse.dropWhile (fun p => p = [])).reverse

/-- The locale a file name implies when the file has no top-level keys
(lines 299-307 of the fetch script): the base name without the .yml suffix,
fully matching the locale pattern, or the captured group of the extra
pattern. -/
def inferredLocale (name : List Char) : Option (List Char) :=
  let base := dropSuffixIf name (lc ".yml")
  if matchesLocale base then some base else extraLocOf base

/-- The effective data of a file in the fetch script: its entries, or a
single inferred empty mapping when it has none (lines 298-308). -/
def inferTops (name : List Char) (es : List (List Char × YVal)) :
    List (List Char × YVal) :=
  match es with
  | [] =>
    match inferredLocale name with
    | some t => [(t, YVal.map [])]
    | none => []
  | _ :: _ => es

/-- Whether the file base name is the primary file of the raw top-level
locale key (line 317 of the fetch script): the raw, dash-normalized or
underscore-normalized locale followed by .yml. -/
def isPrimaryName (name loc : List Char) : Bool :=
  name == loc ++ lc ".yml" || name == trChar '_' '-' loc ++ lc ".yml" ||
    name == trChar '-' '_' loc ++ lc ".yml"

/-- State of the fetch script loop: the fallback hash (first write wins), the
primary hash (last write wins) and the locale set in insertion order. -/
structure FetchSt where
  fallb : List (List Char × List Char)
  prim : List (List Char × List Char)
  locs : List (List Char)
  deriving DecidableEq

/-- Body of the tops.each loop of the fetch script (lines 310-322): record
the normalized locale, look the key path up under the raw top key, and store
a non-blank string value in the primary hash (assignment) or the fallback
hash (assignment when absent). -/
def fetchTop (name : List Char) (es : List (List Char × YVal)) (parts : List (List Char))
    (st : FetchSt) (loc : List Char) : FetchSt :=
  let locNorm := trChar '_' '-' loc
  let st1 : FetchSt := ⟨st.fallb, st.prim, insertNew st.locs locNorm⟩
  match deepGet (YVal.map es) (loc :: parts) with
  | some (YVal.str v) =>
    if isPrimaryName name loc then
      if isBlankL v then st1 else ⟨st1.fallb, assocSet st1.prim locNorm v, st1.locs⟩
    else
      if isBlankL v then st1
      else
        match assocGet st1.fallb locNorm with
        | some _ => st1
        | none => ⟨st1.fallb ++ [(locNorm, v)], st1.prim, st1.locs⟩
  | _ => st1

/-- Body of the file loop of the fetch script (lines 296-323): iterate the
top-level keys of the effective data. -/
def fetchFile (parts : List (List Char)) (st : FetchSt) (f : YFile) : FetchSt :=
  ((inferTops f.name f.entries).map Prod.fst).foldl
    (fetchTop f.name (inferTops f.name f.entries) parts) st

/-- Translation of the fetch script RUBY_FETCH_VALUES (lines 249-331): fold
over the files, then emit one entry per locale in sorted order, preferring
the primary value, then the fallback value, then the empty string.  The glob
result is modelled by the file list in directory order. -/
def fetchValues (files : List YFile) (keyPath : List Char) :
    List (List Char × List Char) :=
  let parts := rubySplitDots keyPath
  let st := files.foldl (fetchFile parts) ⟨[], [], []⟩
  (sortLex st.locs).map (fun loc =>
    (loc, (assocGet st.prim loc).getD ((assocGet st.fallb loc).getD [])))

/-- Specification phrasing of the top-level locale keys of a file, following
the claim text: the top-level keys, or the locale inferred from the name of a
file without any. -/
def specTopsOf (f : YFile) : List (List Char) :=
  match f.entries with
  | [] =>
    match inferredLocale f.name with
    | some t => [t]
    | none => []
  | _ :: _ => f.entries.map Prod.fst

/-- The string value of the key path under a raw top-level key of a file. -/
def specValueAt (f : YFile) (t : List Char) (parts : List (List Char)) : Option (List Char) :=
  match deepGet (YVal.map f.entries) (t :: parts) with
  | some (YVal.str v) => some v
  | _ => none

/-- Primary candidate value contributed by one top-level key of a file: the
key path value when it is a non-blank string and the file is the primary file
of the locale. -/
def primCandAt (f : YFile) (parts : List (List Char)) (ℓ t : List Char) : Option (List Char) :=
  if trChar '_' '-' t = ℓ ∧ isPrimaryName f.name t = true then
    match specValueAt f t parts with
    | some v => if isBlankL v then none else some v
    | none => none
  else none

/-- Fallback candidate value contributed by one top-level key of a
non-primary file. -/
def fallCandAt (f : YFile) (parts : List (List Char)) (ℓ t : List Char) : Option (List Char) :=
  if trChar '_' '-' t = ℓ ∧ isPrimaryName f.name t = false then
    match specValueAt f t parts with
    | some v => if isBlankL v then none else some v
    | none => none
  else none

/-- All primary candidate values for a locale, in file and key order. -/
def primCands (files : List YFile) (parts : List (List Char)) (ℓ : List Char) :
    List (List Char) :=
  files.flatMap (fun f => (specTopsOf f).filterMap (primCandAt f parts ℓ))

/-- All fallback candidate values for a locale, in file and key order. -/
def fallCands (files : List YFile) (parts : List (List Char)) (ℓ : List Char) :
    List (List Char) :=
  files.flatMap (fun f => (specTopsOf f).filterMap (fallCandAt f parts ℓ))

/-- All normalized locales appearing as top-level keys (with inference). -/
def allNormTops (files : List YFile) : List (List Char) :=
  files.flatMap (fun f => (specTopsOf f).map (trChar '_' '-'))

/-- Specification of the fetch script following claim C4: one entry per
distinct normalized locale in sorted order; the value is the last non-blank
primary candidate, else the first non-blank fallback candidate, else the
empty string.  The claim presumes a unique primary file per locale; when
several qualify the completion here (matching the script) is that the last
one in directory order wins. -/
def c4Spec (files : List YFile) (keyPath : List Char) : List (List Char × List Char) :=
  let parts := rubySplitDots keyPath
  (sortLex ((allNormTops files).dedup)).map (fun ℓ =>
    (ℓ, ((primCands files parts ℓ).getLast?).getD
      (((fallCands files parts ℓ).head?).getD [])))

/-- The candidate value one top-level key contributes, before the primary
check: the key path value under it when it is a non-blank string. -/
def candOf (es : List (List Char × YVal)) (parts : List (List Char)) (loc : List Char) :
    Option (List Char) :=
  match deepGet (YVal.map es) (loc :: parts) with
  | some (YVal.str v) => if isBlankL v then none else some v
  | _ => none

/-- Primary candidates contributed by a list of top-level keys of one file. -/
def primTopCands (name : List Char) (es : List (List Char × YVal)) (parts : List (List Char))
    (ℓ : List Char) : List (List Char) → List (List Char)
  | [] => []
  | t :: rest =>
    match (if trChar '_' '-' t = ℓ ∧ isPrimaryName name t = true
           then candOf es parts t else none) with
    | some v => v :: primTopCands name es parts ℓ rest
    | none => primTopCands name es parts ℓ rest

/-- Fallback candidates contributed by a list of top-level keys of one file. -/
def fallTopCands (name : List Char) (es : List (List Char × YVal)) (parts : List (List Char))
    (ℓ : List Char) : List (List Char) → List (List Char)
  | [] => []
  | t :: rest =>
    match (if trChar '_' '-' t = ℓ ∧ isPrimaryName name t = false
           then candOf es parts t else none) with
    | some v => v :: fallTopCands name es parts ℓ rest
    | none => fallTopCands name es parts ℓ rest

/-- Code-side primary candidates across all files. -/
def primCandsC (files : List YFile) (parts : List (List Char)) (ℓ : List Char) :
    List (List Char) :=
  files.flatMap (fun f =>
    primTopCands f.name (inferTops f.name f.entries) parts ℓ
      ((inferTops f.name f.entries).map Prod.fst))

/-- Code-side fallback candidates across all files. -/
def fallCandsC (files : List YFile) (parts : List (List Char)) (ℓ : List Char) :
    List (List Char) :=
  files.flatMap (fun f =>
    fallTopCands f.name (inferTops f.name f.entries) parts ℓ
      ((inferTops f.name f.entries).map Prod.fst))

/-- Code-side normalized top-level keys across all files. -/
def allNormTopsC (files : List YFile) : List (List Char) :=
  files.flatMap (fun f => ((inferTops f.name f.entries).map Prod.fst).map (trChar '_' '-'))

theorem assocGet_append {β : Type} (l1 l2 : List (List Char × β)) (k : List Char) :
    assocGet (l1 ++ l2) k =
      match assocGet l1 k with
      | some v => some v
      | none => assocGet l2 k := by
  induction l1 with
  | nil => simp [assocGet]
  | cons p rest ih =>
    by_cases hk : p.1 = k
    · simp [assocGet, hk]
    · simp [assocGet, hk, ih]

theorem getLast?_append_match {α : Type} (l1 l2 : List α) :
    (l1 ++ l2).getLast? =
      match l2.getLast? with
      | some x => some x
      | none => l1.getLast? := by
  rw [← List.head?_reverse, ← List.head?_reverse, ← List.head?_reverse, List.reverse_append]
  cases hr : l2.reverse with
  | nil => simp
  | cons a t => simp

theorem head?_append_match {α : Type} (l1 l2 : List α) :
    (l1 ++ l2).head? =
      match l1.head? with
      | some x => some x
      | none => l2.head? := by
  cases l1 with
  | nil => simp
  | cons a t => simp

theorem filterMap_ext {α β : Type} (l : List α) (f g : α → Option β)
    (h : ∀ x, f x = g x) : l.filterMap f = l.filterMap g := by
  induction l with
  | nil => rfl
  | cons a t ih => simp [List.filterMap_cons, h a, ih]

theorem flatMap_ext {α β : Type} (l : List α) (f g : α → List β)
    (h : ∀ x, f x = g x) : l.flatMap f = l.flatMap g := by
  induction l with
  | nil => rfl
  | cons a t ih => simp [List.flatMap_cons, h a, ih]

theorem mem_foldl_insertNew (l : List (List Char)) (s : List (List Char)) (x : List Char) :
    x ∈ l.foldl insertNew s ↔ x ∈ s ∨ x ∈ l := by
  induction l generalizing s with
  | nil => simp
  | cons a t ih =>
    rw [List.foldl_cons, ih, mem_insertNew]
    constructor
    · rintro ((hx | hx) | hx)
      · exact Or.inl hx
      · exact Or.inr (by simp [hx])
      · exact Or.inr (List.mem_cons_of_mem a hx)
    · rintro (hx | hx)
      · exact Or.inl (Or.inl hx)
      · rcases List.mem_cons.mp hx with hx | hx
        · exact Or.inl (Or.inr hx)
        · exact Or.inr hx

theorem nodup_foldl_insertNew (l : List (List Char)) (s : List (List Char)) (h : s.Nodup) :
    (l.foldl insertNew s).Nodup := by
  induction l generalizing s with
  | nil => exact h
  | cons a t ih => exact ih (insertNew s a) (nodup_insertNew s a h)

/-- Field-wise characterization of one step of the tops loop. -/
theorem fetchTop_eq (name : List Char) (es : List (List Char × YVal))
    (parts : List (List Char)) (st : FetchSt) (loc : List Char) :
    fetchTop name es parts st loc =
      ⟨(if isPrimaryName name loc then st.fallb else
          match candOf es parts loc with
          | some v =>
            (match assocGet st.fallb (trChar '_' '-' loc) with
             | some _ => st.fallb
             | none => st.fallb ++ [(trChar '_' '-' loc, v)])
          | none => st.fallb),
        (if isPrimaryName name loc then
          match candOf es parts loc with
          | some v => assocSet st.prim (trChar '_' '-' loc) v
          | none => st.prim
         else st.prim),
        insertNew st.locs (trChar '_' '-' loc)⟩ := by
  unfold fetchTop candOf
  cases hd : deepGet (YVal.map es) (loc :: parts) with
  | none => by_cases hp : isPrimaryName name loc <;> simp [hp]
  | some v =>
    cases v with
    | str s =>
      by_cases hp : isPrimaryName name loc <;> by_cases hb : isBlankL s <;>
        simp [hp, hb] <;>
        (cases assocGet st.fallb (trChar '_' '-' loc) <;> rfl)
    | map m => by_cases hp : isPrimaryName name loc <;> simp [hp]
    | other => by_cases hp : isPrimaryName name loc <;> simp [hp]

/-- The locale set after the tops loop. -/
theorem fetchTopFold_locs (name : List Char) (es : List (List Char × YVal))
    (parts : List (List Char)) (tops : List (List Char)) (st : FetchSt) :
    (tops.foldl (fetchTop name es parts) st).locs =
      (tops.map (trChar '_' '-')).foldl insertNew st.locs := by
  induction tops generalizing st with
  | nil => rfl
  | cons t rest ih =>
    rw [List.foldl_cons, List.map_cons, List.foldl_cons, ih, fetchTop_eq]

/-- The primary hash after the tops loop: the last candidate wins. -/
theorem fetchTopFold_prim (name : List Char) (es : List (List Char × YVal))
    (parts : List (List Char)) (tops : List (List Char)) (st : FetchSt) (ℓ : List Char) :
    assocGet (tops.foldl (fetchTop name es parts) st).prim ℓ =
      match (primTopCands name es parts ℓ tops).getLast? with
      | some v => some v
      | none => assocGet st.prim ℓ := by
  induction tops generalizing st with
  | nil => rfl
  | cons t rest ih =>
    rw [List.foldl_cons, ih]
    cases hft : (if trChar '_' '-' t = ℓ ∧ isPrimaryName name t = true
        then candOf es parts t else none) with
    | some v =>
      have hcond : trChar '_' '-' t = ℓ ∧ isPrimaryName name t = true := by
        by_contra hnc
        rw [if_neg hnc] at hft
        exact Option.noConfusion hft
      have hcv : candOf es parts t = some v := by
        rw [if_pos hcond] at hft
        exact hft
      have hcons : primTopCands name es parts ℓ (t :: rest) =
          v :: primTopCands name es parts ℓ rest := by
        show (match (if trChar '_' '-' t = ℓ ∧ isPrimaryName name t = true
            then candOf es parts t else none) with
          | some v => v :: primTopCands name es parts ℓ rest
          | none => primTopCands name es parts ℓ rest) = _
        rw [hft]
      have hprim : (fetchTop name es parts st t).prim =
          assocSet st.prim (trChar '_' '-' t) v := by
        rw [fetchTop_eq]
        simp only [if_pos hcond.2, hcv]
      rw [hcons, hprim]
      cases hrest : (primTopCands name es parts ℓ rest).getLast? with
      | some w =>
        rw [getLast?_cons_of_some v (primTopCands name es parts ℓ rest) w hrest]
      | none =>
        rw [(getLast?_none_iff_nil (primTopCands name es parts ℓ rest)).mp hrest]
        show assocGet (assocSet st.prim (trChar '_' '-' t) v) ℓ = some v
        rw [hcond.1, assocGet_assocSet_self]
    | none =>
      have hcons : primTopCands name es parts ℓ (t :: rest) =
          primTopCands name es parts ℓ rest := by
        show (match (if trChar '_' '-' t = ℓ ∧ isPrimaryName name t = true
            then candOf es parts t else none) with
          | some v => v :: primTopCands name es parts ℓ rest
          | none => primTopCands name es parts ℓ rest) = _
        rw [hft]
      rw [hcons]
      have hprim : assocGet (fetchTop name es parts st t).prim ℓ = assocGet st.prim ℓ := by
        rw [fetchTop_eq]
        by_cases hp : isPrimaryName name t
        · simp only [if_pos hp]
          cases hcv : candOf es parts t with
          | none => rfl
          | some v =>
            have hne : ¬ trChar '_' '-' t = ℓ := by
              intro he
              rw [if_pos ⟨he, hp⟩, hcv] at hft
              exact Option.noConfusion hft
            show assocGet (assocSet st.prim (trChar '_' '-' t) v) ℓ = assocGet st.prim ℓ
            exact assocGet_assocSet_ne st.prim (trChar '_' '-' t) ℓ v
              (fun he => hne he.symm)
        · simp only [if_neg hp]
      rw [hprim]

/-- The fallback hash after the tops loop: the first candidate wins. -/
theorem fetchTopFold_fallb (name : List Char) (es : List (List Char × YVal))
    (parts : List (List Char)) (tops : List (List Char)) (st : FetchSt) (ℓ : List Char) :
    assocGet (tops.foldl (fetchTop name es parts) st).fallb ℓ =
      match assocGet st.fallb ℓ with
      | some v => some v
      | none => (fallTopCands name es parts ℓ tops).head? := by
  induction tops generalizing st with
  | nil =>
    show assocGet st.fallb ℓ = _
    cases assocGet st.fallb ℓ <;> rfl
  | cons t rest ih =>
    rw [List.foldl_cons, ih]
    cases hft : (if trChar '_' '-' t = ℓ ∧ isPrimaryName name t = false
        then candOf es parts t else none) with
    | some v =>
      have hcond : trChar '_' '-' t = ℓ ∧ isPrimaryName name t = false := by
        by_contra hnc
        rw [if_neg hnc] at hft
        exact Option.noConfusion hft
      have hcv : candOf es parts t = some v := by
        rw [if_pos hcond] at hft
        exact hft
      have hcons : fallTopCands name es parts ℓ (t :: rest) =
          v :: fallTopCands name es parts ℓ rest := by
        show (match (if trChar '_' '-' t = ℓ ∧ isPrimaryName name t = false
            then candOf es parts t else none) with
          | some v => v :: fallTopCands name es parts ℓ rest
          | none => fallTopCands name es parts ℓ rest) = _
        rw [hft]
      have hnp : ¬ isPrimaryName name t = true := by
        rw [hcond.2]
        exact Bool.false_ne_true
      rw [hcons]
      cases hfb : assocGet st.fallb ℓ with
      | some w =>
        have hfb2 : assocGet st.fallb (trChar '_' '-' t) = some w := by
          rw [hcond.1]
          exact hfb
        have hfallb : (fetchTop name es parts st t).fallb = st.fallb := by
          rw [fetchTop_eq]
          simp only [if_neg hnp, hcv, hfb2]
        rw [hfallb, hfb]
      | none =>
        have hfb2 : assocGet st.fallb (trChar '_' '-' t) = none := by
          rw [hcond.1]
          exact hfb
        have hfallb : (fetchTop name es parts st t).fallb =
            st.fallb ++ [(trChar '_' '-' t, v)] := by
          rw [fetchTop_eq]
          simp only [if_neg hnp, hcv, hfb2]
        rw [hfallb, assocGet_append, hfb]
        have hget : assocGet [(trChar '_' '-' t, v)] ℓ = some v := by
          rw [hcond.1]
          show (if ℓ = ℓ then some v else assocGet [] ℓ) = some v
          rw [if_pos rfl]
        rw [hget]
        rfl
    | none =>
      have hcons : fallTopCands name es parts ℓ (t :: rest) =
          fallTopCands name es parts ℓ rest := by
        show (match (if trChar '_' '-' t = ℓ ∧ isPrimaryName name t = false
            then candOf es parts t else none) with
          | some v => v :: fallTopCands name es parts ℓ rest
          | none => fallTopCands name es parts ℓ rest) = _
        rw [hft]
      rw [hcons]
      have hfallb : assocGet (fetchTop name es parts st t).fallb ℓ = assocGet st.fallb ℓ := by
        rw [fetchTop_eq]
        by_cases hp : isPrimaryName name t
        · simp only [if_pos hp]
        · simp only [if_neg hp]
          cases hcv : candOf es parts t with
          | none => rfl
          | some v =>
            have hne : ¬ trChar '_' '-' t = ℓ := by
              intro he
              rw [if_pos ⟨he, Bool.not_eq_true _ ▸ (by simpa using hp)⟩, hcv] at hft
              exact Option.noConfusion hft
            cases hfb2 : assocGet st.fallb (trChar '_' '-' t) with
            | some w => rfl
            | none =>
              show assocGet (st.fallb ++ [(trChar '_' '-' t, v)]) ℓ = assocGet st.fallb ℓ
              rw [assocGet_append]
              cases hfb : assocGet st.fallb ℓ with
              | some w => rfl
              | none =>
                show assocGet [(trChar '_' '-' t, v)] ℓ = none
                show (if trChar '_' '-' t = ℓ then some v else assocGet [] ℓ) = none
                rw [if_neg hne]
                rfl
      rw [hfallb]

/-- The locale set after the file loop. -/
theorem fetchFileFold_locs (parts : List (List Char)) (files : List YFile) (st : FetchSt) :
    (files.foldl (fetchFile parts) st).locs = (allNormTopsC files).foldl insertNew st.locs := by
  induction files generalizing st with
  | nil => rfl
  | cons f rest ih =>
    have hsplit : allNormTopsC (f :: rest) =
        ((inferTops f.name f.entries).map Prod.fst).map (trChar '_' '-')
          ++ allNormTopsC rest := by
      unfold allNormTopsC
      rw [List.flatMap_cons]
    rw [List.foldl_cons, ih, hsplit, List.foldl_append]
    unfold fetchFile
    rw [fetchTopFold_locs]

/-- The primary hash after the file loop. -/
theorem fetchFileFold_prim (parts : List (List Char)) (files : List YFile) (st : FetchSt)
    (ℓ : List Char) :
    assocGet (files.foldl (fetchFile parts) st).prim ℓ =
      match (primCandsC files parts ℓ).getLast? with
      | some v => some v
      | none => assocGet st.prim ℓ := by
  induction files generalizing st with
  | nil => rfl
  | cons f rest ih =>
    have hsplit : primCandsC (f :: rest) parts ℓ =
        primTopCands f.name (inferTops f.name f.entries) parts ℓ
          ((inferTops f.name f.entries).map Prod.fst) ++ primCandsC rest parts ℓ := by
      unfold primCandsC
      rw [List.flatMap_cons]
    rw [List.foldl_cons, ih, hsplit, getLast?_append_match]
    cases hrest : (primCandsC rest parts ℓ).getLast? with
    | some w => rfl
    | none =>
      show assocGet (fetchFile parts st f).prim ℓ = _
      unfold fetchFile
      rw [fetchTopFold_prim]

/-- The fallback hash after the file loop. -/
theorem fetchFileFold_fallb (parts : List (List Char)) (files : List YFile) (st : FetchSt)
    (ℓ : List Char) :
    assocGet (files.foldl (fetchFile parts) st).fallb ℓ =
      match assocGet st.fallb ℓ with
      | some v => some v
      | none => (fallCandsC files parts ℓ).head? := by
  induction files generalizing st with
  | nil =>
    show assocGet st.fallb ℓ = _
    cases assocGet st.fallb ℓ <;> rfl
  | cons f rest ih =>
    rw [List.foldl_cons, ih]
    have hstep : assocGet (fetchFile parts st f).fallb ℓ =
        match assocGet st.fallb ℓ with
        | some v => some v
        | none => (fallTopCands f.name (inferTops f.name f.entries) parts ℓ
            ((inferTops f.name f.entries).map Prod.fst)).head? := by
      unfold fetchFile
      rw [fetchTopFold_fallb]
    rw [hstep]
    have hsplit : fallCandsC (f :: rest) parts ℓ =
        fallTopCands f.name (inferTops f.name f.entries) parts ℓ
          ((inferTops f.name f.entries).map Prod.fst) ++ fallCandsC rest parts ℓ := by
      unfold fallCandsC
      rw [List.flatMap_cons]
    rw [hsplit, head?_append_match]
    cases hfb : assocGet st.fallb ℓ with
    | some w => rfl
    | none =>
      cases hhd : (fallTopCands f.name (inferTops f.name f.entries) parts ℓ
          ((inferTops f.name f.entries).map Prod.fst)).head? <;> rfl

/-- The recursive candidate list is the filterMap of the guarded candidate. -/
theorem primTopCands_eq_filterMap (name : List Char) (es : List (List Char × YVal))
    (parts : List (List Char)) (ℓ : List Char) (tops : List (List Char)) :
    primTopCands name es parts ℓ tops =
      tops.filterMap (fun t =>
        if trChar '_' '-' t = ℓ ∧ isPrimaryName name t = true
        then candOf es parts t else none) := by
  induction tops with
  | nil => rfl
  | cons t rest ih =>
    rw [List.filterMap_cons]
    cases hft : (if trChar '_' '-' t = ℓ ∧ isPrimaryName name t = true
        then candOf es parts t else none) with
    | some v =>
      show (match (if trChar '_' '-' t = ℓ ∧ isPrimaryName name t = true
          then candOf es parts t else none) with
        | some v => v :: primTopCands name es parts ℓ rest
        | none => primTopCands name es parts ℓ rest) = _
      rw [hft, ih]
    | none =>
      show (match (if trChar '_' '-' t = ℓ ∧ isPrimaryName name t = true
          then candOf es parts t else none) with
        | some v => v :: primTopCands name es parts ℓ rest
        | none => primTopCands name es parts ℓ rest) = _
      rw [hft, ih]

/-- The recursive fallback candidate list as a filterMap. -/
theorem fallTopCands_eq_filterMap (name : List Char) (es : List (List Char × YVal))
    (parts : List (List Char)) (ℓ : List Char) (tops : List (List Char)) :
    fallTopCands name es parts ℓ tops =
      tops.filterMap (fun t =>
        if trChar '_' '-' t = ℓ ∧ isPrimaryName name t = false
        then candOf es parts t else none) := by
  induction tops with
  | nil => rfl
  | cons t rest ih =>
    rw [List.filterMap_cons]
    cases hft : (if trChar '_' '-' t = ℓ ∧ isPrimaryName name t = false
        then candOf es parts t else none) with
    | some v =>
      show (match (if trChar '_' '-' t = ℓ ∧ isPrimaryName name t = false
          then candOf es parts t else none) with
        | some v => v :: fallTopCands name es parts ℓ rest
        | none => fallTopCands name es parts ℓ rest) = _
      rw [hft, ih]
    | none =>
      show (match (if trChar '_' '-' t = ℓ ∧ isPrimaryName name t = false
          then candOf es parts t else none) with
        | some v => v :: fallTopCands name es parts ℓ rest
        | none => fallTopCands name es parts ℓ rest) = _
      rw [hft, ih]

/-- The claim-side top-key list is the key list of the effective data. -/
theorem specTopsOf_eq (f : YFile) :
    specTopsOf f = (inferTops f.name f.entries).map Prod.fst := by
  obtain ⟨name, entries⟩ := f
  cases entries with
  | nil =>
    show (match inferredLocale name with
      | some t => [t]
      | none => []) =
      (match inferredLocale name with
        | some t => [(t, YVal.map [])]
        | none => ([] : List (List Char × YVal))).map Prod.fst
    cases inferredLocale name <;> rfl
  | cons p rest => rfl

/-- The pre-primary candidate over the effective data agrees with the claim
value over the raw entries: an inferred empty mapping never holds a string. -/
theorem candOf_eq_specValue (f : YFile) (parts : List (List Char)) (t : List Char) :
    candOf (inferTops f.name f.entries) parts t =
      match specValueAt f t parts with
      | some v => if isBlankL v then none else some v
      | none => none := by
  obtain ⟨name, entries⟩ := f
  cases entries with
  | cons p rest =>
    show candOf (p :: rest) parts t = _
    unfold candOf specValueAt
    cases deepGet (YVal.map (p :: rest)) (t :: parts) with
    | none => rfl
    | some v => cases v <;> rfl
  | nil =>
    show candOf (inferTops name []) parts t = _
    have hspec : specValueAt ⟨name, []⟩ t parts = none := by
      unfold specValueAt
      show (match deepGet (YVal.map []) (t :: parts) with
        | some (YVal.str v) => some v
        | _ => none) = none
      rfl
    rw [hspec]
    unfold inferTops
    cases hil : inferredLocale name with
    | none => rfl
    | some t0 =>
      show candOf [(t0, YVal.map [])] parts t = none
      unfold candOf
      by_cases ht : t0 = t
      · subst ht
        have hdg : deepGet (YVal.map [(t0, YVal.map [])]) (t0 :: parts) =
            deepGet (YVal.map []) parts := by
          show (match assocGet [(t0, YVal.map [])] t0 with
            | some v => deepGet v parts
            | none => none) = _
          show (match (if t0 = t0 then some (YVal.map []) else assocGet [] t0) with
            | some v => deepGet v parts
            | none => none) = _
          rw [if_pos rfl]
        rw [hdg]
        cases parts with
        | nil => rfl
        | cons k ks => rfl
      · have hdg : deepGet (YVal.map [(t0, YVal.map [])]) (t :: parts) = none := by
          show (match assocGet [(t0, YVal.map [])] t with
            | some v => deepGet v parts
            | none => none) = _
          show (match (if t0 = t then some (YVal.map []) else assocGet [] t) with
            | some v => deepGet v parts
            | none => none) = _
          rw [if_neg ht]
          rfl
        rw [hdg]

/-- Per-file bridge for primary candidates. -/
theorem primTopCands_eq_spec (f : YFile) (parts : List (List Char)) (ℓ : List Char) :
    primTopCands f.name (inferTops f.name f.entries) parts ℓ
      ((inferTops f.name f.entries).map Prod.fst)
    = (specTopsOf f).filterMap (primCandAt f parts ℓ) := by
  rw [primTopCands_eq_filterMap, specTopsOf_eq]
  apply filterMap_ext
  intro t
  unfold primCandAt
  by_cases hcond : trChar '_' '-' t = ℓ ∧ isPrimaryName f.name t = true
  · rw [if_pos hcond, if_pos hcond, candOf_eq_specValue]
  · rw [if_neg hcond, if_neg hcond]

/-- Per-file bridge for fallback candidates. -/
theorem fallTopCands_eq_spec (f : YFile) (parts : List (List Char)) (ℓ : List Char) :
    fallTopCands f.name (inferTops f.name f.entries) parts ℓ
      ((inferTops f.name f.entries).map Prod.fst)
    = (specTopsOf f).filterMap (fallCandAt f parts ℓ) := by
  rw [fallTopCands_eq_filterMap, specTopsOf_eq]
  apply filterMap_ext
  intro t
  unfold fallCandAt
  by_cases hcond : trChar '_' '-' t = ℓ ∧ isPrimaryName f.name t = false
  · rw [if_pos hcond, if_pos hcond, candOf_eq_specValue]
  · rw [if_neg hcond, if_neg hcond]

theorem primCandsC_eq (files : List YFile) (parts : List (List Char)) (ℓ : List Char) :
    primCandsC files parts ℓ = primCands files parts ℓ :=
  flatMap_ext files _ _ (fun f => primTopCands_eq_spec f parts ℓ)

theorem fallCandsC_eq (files : List YFile) (parts : List (List Char)) (ℓ : List Char) :
    fallCandsC files parts ℓ = fallCands files parts ℓ :=
  flatMap_ext files _ _ (fun f => fallTopCands_eq_spec f parts ℓ)

theorem allNormTopsC_eq (files : List YFile) : allNormTopsC files = allNormTops files :=
  flatMap_ext files _ _ (fun f => by rw [specTopsOf_eq])

/-- Primary candidates under the literal claim reading: values under the
top-level keys of THE file named with the normalized locale followed by
.yml. -/
def origPrimCands (files : List YFile) (parts : List (List Char)) (ℓ : List Char) :
    List (List Char) :=
  files.flatMap (fun f =>
    if f.name = ℓ ++ lc ".yml" then
      (specTopsOf f).filterMap (fun t =>
        if trChar '_' '-' t = ℓ then
          match specValueAt f t parts with
          | some v => if isBlankL v then none else some v
          | none => none
        else none)
    else [])

/-- Fallback candidates under the literal claim reading: values found in the
files not named with the normalized locale followed by .yml. -/
def origFallCands (files : List YFile) (parts : List (List Char)) (ℓ : List Char) :
    List (List Char) :=
  files.flatMap (fun f =>
    if f.name = ℓ ++ lc ".yml" then []
    else
      (specTopsOf f).filterMap (fun t =>
        if trChar '_' '-' t = ℓ then
          match specValueAt f t parts with
          | some v => if isBlankL v then none else some v
          | none => none
        else none))

/-- The literal reading of claim C4: the primary value comes from the file
named exactly with the normalized locale followed by .yml, the fallback is
the first non-blank value in any other file. -/
def c4OrigSpec (files : List YFile) (keyPath : List Char) : List (List Char × List Char) :=
  let parts := rubySplitDots keyPath
  (sortLex ((allNormTops files).dedup)).map (fun ℓ =>
    (ℓ, ((origPrimCands files parts ℓ).getLast?).getD
      (((origFallCands files parts ℓ).head?).getD [])))

/-- Concrete file list separating the script from the literal claim reading:
an extra file plus an underscore-named file, both holding the key for locale
en-US, and no file named en-US.yml. -/
def c4CexFiles : List YFile :=
  [⟨lc "a.en-US.yml", [(lc "en-US", YVal.map [(lc "k", YVal.str (lc "fb"))])]⟩,
   ⟨lc "en_US.yml", [(lc "en_US", YVal.map [(lc "k", YVal.str (lc "pv"))])]⟩]

/-- Counterexample to claim C4 as literally stated: with files a.en-US.yml
(top key en-US, value fb) and en_US.yml (top key en_US, value pv) and key
path k, the script treats en_US.yml as the primary file of locale en-US and
answers pv, while under the claim the primary file en-US.yml does not exist
and the first non-blank fallback value fb would be answered. -/
theorem c4_counterexample :
    fetchValues c4CexFiles (lc "k") = [(lc "en-US", lc "pv")] ∧
    c4OrigSpec c4CexFiles (lc "k") = [(lc "en-US", lc "fb")] := by
  constructor <;> rfl

/-- Claim C4, amended: the fetch script returns one entry per distinct
normalized top-level locale (with inference from empty file names) in sorted
order; the value is the last candidate written by a file/key pair passing the
primary name test (raw, dash- or underscore-normalized key followed by .yml),
else the first non-blank candidate from a pair failing it, else the empty
string. -/
theorem c4_fetch_values (files : List YFile) (keyPath : List Char) :
    fetchValues files keyPath = c4Spec files keyPath := by
  simp only [fetchValues, c4Spec]
  have hlocs := fetchFileFold_locs (rubySplitDots keyPath) files ⟨[], [], []⟩
  have hperm : ((allNormTopsC files).foldl insertNew ([] : List (List Char))).Perm
      ((allNormTops files).dedup) := by
    rw [List.perm_ext_iff_of_nodup (nodup_foldl_insertNew _ _ List.nodup_nil)
      (List.nodup_dedup _)]
    intro x
    rw [mem_foldl_insertNew, List.mem_dedup, allNormTopsC_eq]
    simp
  have hsort : sortLex (files.foldl (fetchFile (rubySplitDots keyPath)) ⟨[], [], []⟩).locs
      = sortLex ((allNormTops files).dedup) := by
    rw [hlocs]
    exact sortLex_eq_of_perm _ _ hperm
  rw [hsort]
  apply List.map_congr_left
  intro ℓ hmem
  have hp := fetchFileFold_prim (rubySplitDots keyPath) files ⟨[], [], []⟩ ℓ
  have hf := fetchFileFold_fallb (rubySplitDots keyPath) files ⟨[], [], []⟩ ℓ
  rw [primCandsC_eq] at hp
  rw [fallCandsC_eq] at hf
  rw [hp, hf]
  cases hgl : (primCands files (rubySplitDots keyPath) ℓ).getLast? <;>
    cases hhd : (fallCands files (rubySplitDots keyPath) ℓ).head? <;> rfl

/-- The dash-normalized file name tried first by the write script
(lines 372 and 375). -/
def dashName (loc : List Char) : List Char := trChar '_' '-' loc ++ lc ".yml"

/-- The underscore-normalized file name tried second (lines 373 and 376). -/
def undName (loc : List Char) : List Char := trChar '-' '_' loc ++ lc ".yml"

/-- The file the write script writes for a locale (lines 375-376): the
dash-normalized name when that file exists, the underscore-normalized name
otherwise.  The file system is modelled as an association list from base
name to parsed top-level value. -/
def targetOf (fs : List (List Char × YVal)) (loc : List Char) : List Char :=
  match assocGet fs (dashName loc) with
  | some _ => dashName loc
  | none => undName loc

/-- The data the write script starts from (lines 378-380): the parsed
mapping of the target file, or an empty mapping when it is missing or not a
mapping. -/
def dataOf (fs : List (List Char × YVal)) (loc : List Char) : List (List Char × YVal) :=
  match assocGet fs (targetOf fs loc) with
  | some (YVal.map es) => es
  | _ => []

/-- The top-level key the write script writes under (line 382): the first
existing key equal to the raw, dash-normalized or underscore-normalized
locale, or the dash-normalized locale when none matches. -/
def topKeyOf (fs : List (List Char × YVal)) (loc : List Char) : List Char :=
  (((dataOf fs loc).map Prod.fst).find? (fun k =>
    k == loc || k == trChar '_' '-' loc || k == trChar '-' '_' loc)).getD
    (trChar '_' '-' loc)

/-- Translation of deep_set of the write script (lines 344-353): descend
along all keys but the last, replacing a missing or non-mapping intermediate
value by an empty mapping, and set the last key to the string value. -/
def deepSetH : List (List Char × YVal) → List (List Char) → List Char →
    List (List Char × YVal)
  | es, [], _ => es
  | es, [k], v => assocSet es k (YVal.str v)
  | es, k :: k2 :: rest, v =>
    assocSet es k (YVal.map (deepSetH
      (match assocGet es k with
       | some (YVal.map m) => m
       | _ => []) (k2 :: rest) v))

mutual

/-- Translation of sorted_hash of the write script (lines 355-358): sort the
keys of every mapping recursively; non-mappings are returned unchanged.  The
keys of the model are already strings, so the to_s coercion is the
identity. -/
def sortedHashV : YVal → YVal
  | YVal.map es =>
    YVal.map ((sortLex ((es.map Prod.fst).dedup)).map
      (fun k => (k, (assocGet (entsRec es) k).getD YVal.other)))
  | YVal.str s => YVal.str s
  | YVal.other => YVal.other

/-- sorted_hash applied to every value of an entry list. -/
def entsRec : List (List Char × YVal) → List (List Char × YVal)
  | [] => []
  | (k, v) :: rest => (k, sortedHashV v) :: entsRec rest

end

/-- The entry list sorted_hash builds for a mapping. -/
def sortedTop (es : List (List Char × YVal)) : List (List Char × YVal) :=
  (sortLex ((es.map Prod.fst).dedup)).map
    (fun k => (k, (assocGet (entsRec es) k).getD YVal.other))

/-- One iteration of the values loop of the write script (lines 371-390). -/
def writeStep (parts : List (List Char)) (fs : List (List Char × YVal))
    (pr : List Char × List Char) : List (List Char × YVal) :=
  assocSet fs (targetOf fs pr.1)
    (YVal.map (sortedTop (deepSetH (dataOf fs pr.1) (topKeyOf fs pr.1 :: parts) pr.2)))

/-- Translation of the write script RUBY_WRITE_VALUES (lines 333-391): fold
the values loop over the file system. -/
def writeValues (fs : List (List Char × YVal)) (keyPath : List Char)
    (values : List (List Char × List Char)) : List (List Char × YVal) :=
  values.foldl (writeStep (rubySplitDots keyPath)) fs

/-- Strictly ascending key list. -/
def keysSortedB : List (List Char) → Bool
  | [] => true
  | [_] => true
  | a :: b :: rest => decide (a < b) && keysSortedB (b :: rest)

mutual

/-- Recursively sorted value: every mapping has strictly ascending keys and
recursively sorted values. -/
def ysortedV : YVal → Bool
  | YVal.map es => keysSortedB (es.map Prod.fst) && ysortedEnts es
  | YVal.str _ => true
  | YVal.other => true

/-- Recursively sorted values of an entry list. -/
def ysortedEnts : List (List Char × YVal) → Bool
  | [] => true
  | (_, v) :: rest => ysortedV v && ysortedEnts rest

end

theorem assocGet_entsRec (es : List (List Char × YVal)) (k : List Char) :
    assocGet (entsRec es) k = (assocGet es k).map sortedHashV := by
  induction es with
  | nil => rfl
  | cons p rest ih =>
    obtain ⟨k2, v⟩ := p
    show assocGet ((k2, sortedHashV v) :: entsRec rest) k = _
    by_cases hk : k2 = k
    · simp [assocGet, hk]
    · simp [assocGet, hk, ih]

theorem mem_keys_assocGet (es : List (List Char × YVal)) (k : List Char)
    (h : k ∈ es.map Prod.fst) : ∃ v, assocGet es k = some v := by
  induction es with
  | nil => simp at h
  | cons p rest ih =>
    by_cases hk : p.1 = k
    · exact ⟨p.2, by simp [assocGet, hk]⟩
    · have h2 : k ∈ rest.map Prod.fst := by
        rcases List.mem_map.mp h with ⟨q, hq, hqk⟩
        rcases List.mem_cons.mp hq with hq1 | hq1
        · exact absurd (hq1 ▸ hqk) hk
        · exact List.mem_map.mpr ⟨q, hq1, hqk⟩
      obtain ⟨v, hv⟩ := ih h2
      exact ⟨v, by simp [assocGet, hk, hv]⟩

theorem assocGet_none_of_not_mem (es : List (List Char × YVal)) (k : List Char)
    (h : ¬ k ∈ es.map Prod.fst) : assocGet es k = none := by
  induction es with
  | nil => rfl
  | cons p rest ih =>
    have hk : ¬ p.1 = k := fun he => h (by
      rw [List.map_cons]
      exact List.mem_cons.mpr (Or.inl he.symm))
    have h2 : ¬ k ∈ rest.map Prod.fst := fun hm => h (by
      rw [List.map_cons]
      exact List.mem_cons_of_mem p.1 hm)
    simp [assocGet, hk, ih h2]

theorem assocGet_some_sizeOf (es : List (List Char × YVal)) (k : List Char) (v : YVal)
    (h : assocGet es k = some v) : sizeOf v < sizeOf es := by
  induction es with
  | nil => exact absurd h (by simp [assocGet])
  | cons p rest ih =>
    by_cases hk : p.1 = k
    · have hv : v = p.2 := by
        rw [show assocGet (p :: rest) k = some p.2 from by simp [assocGet, hk]] at h
        exact (Option.some_inj.mp h).symm
      subst hv
      obtain ⟨k2, v2⟩ := p
      simp
      omega
    · have h2 : assocGet rest k = some v := by
        rw [show assocGet (p :: rest) k = assocGet rest k from by simp [assocGet, hk]] at h
        exact h
      have := ih h2
      obtain ⟨k2, v2⟩ := p
      simp
      omega

theorem assocGet_mapBuild (ks : List (List Char)) (g : List Char → YVal) (k : List Char) :
    assocGet (ks.map (fun k2 => (k2, g k2))) k = if k ∈ ks then some (g k) else none := by
  induction ks with
  | nil => simp [assocGet]
  | cons a t ih =>
    by_cases hk : a = k
    · subst hk
      simp [assocGet]
    · have hk2 : ¬ k = a := fun he => hk he.symm
      show (if a = k then some (g a) else assocGet (t.map (fun k2 => (k2, g k2))) k) = _
      rw [if_neg hk, ih]
      by_cases hm : k ∈ t
      · rw [if_pos hm, if_pos (List.mem_cons_of_mem a hm)]
      · rw [if_neg hm, if_neg (by simp [hk2, hm])]

theorem mem_sortLex_dedup (l : List (List Char)) (k : List Char) :
    k ∈ sortLex l.dedup ↔ k ∈ l := by
  unfold sortLex
  rw [(List.perm_insertionSort (fun a b => a ≤ b) l.dedup).mem_iff, List.mem_dedup]

theorem assocGet_sortedTop (es : List (List Char × YVal)) (k : List Char) :
    assocGet (sortedTop es) k = (assocGet es k).map sortedHashV := by
  unfold sortedTop
  rw [assocGet_mapBuild]
  by_cases hk : k ∈ sortLex ((es.map Prod.fst).dedup)
  · rw [if_pos hk]
    obtain ⟨v, hv⟩ := mem_keys_assocGet es k ((mem_sortLex_dedup (es.map Prod.fst) k).mp hk)
    rw [assocGet_entsRec, hv]
    rfl
  · rw [if_neg hk]
    rw [assocGet_none_of_not_mem es k
      (fun hm => hk ((mem_sortLex_dedup (es.map Prod.fst) k).mpr hm))]
    rfl

theorem map_fst_mapBuild (ks : List (List Char)) (g : List Char → YVal) :
    (ks.map (fun k2 => (k2, g k2))).map Prod.fst = ks := by
  induction ks with
  | nil => rfl
  | cons a t ih => simp [ih]

theorem map_fst_sortedTop (es : List (List Char × YVal)) :
    (sortedTop es).map Prod.fst = sortLex ((es.map Prod.fst).dedup) := by
  unfold sortedTop
  exact map_fst_mapBuild _ _

theorem keysSortedB_of_sorted_nodup (l : List (List Char))
    (hs : l.Sorted (fun a b => a ≤ b)) (hn : l.Nodup) : keysSortedB l = true := by
  induction l with
  | nil => rfl
  | cons a t ih =>
    cases t with
    | nil => rfl
    | cons b t2 =>
      have hab : a ≤ b := (List.sorted_cons.mp hs).1 b (by simp)
      have hne : a ≠ b := by
        have := (List.nodup_cons.mp hn).1
        exact fun he => this (by simp [he])
      show (decide (a < b) && keysSortedB (b :: t2)) = true
      rw [Bool.and_eq_true]
      refine ⟨by simp [lt_of_le_of_ne hab hne], ih (List.sorted_cons.mp hs).2
        (List.nodup_cons.mp hn).2⟩

theorem ysortedEnts_of_forall (l : List (List Char × YVal))
    (h : ∀ p ∈ l, ysortedV p.2 = true) : ysortedEnts l = true := by
  induction l with
  | nil => rfl
  | cons p rest ih =>
    obtain ⟨k, v⟩ := p
    show (ysortedV v && ysortedEnts rest) = true
    rw [Bool.and_eq_true]
    exact ⟨h (k, v) (by simp), ih (fun q hq => h q (List.mem_cons_of_mem (k, v) hq))⟩

theorem ysortedV_sortedHashV (v : YVal) : ysortedV (sortedHashV v) = true := by
  suffices h : ∀ n (v : YVal), sizeOf v ≤ n → ysortedV (sortedHashV v) = true from
    h (sizeOf v) v le_rfl
  intro n
  induction n with
  | zero =>
    intro v hv
    exfalso
    cases v <;> (simp at hv)
  | succ m ih =>
    intro v hv
    cases v with
    | str s => rfl
    | other => rfl
    | map es =>
      show (keysSortedB ((sortedTop es).map Prod.fst) && ysortedEnts (sortedTop es)) = true
      rw [Bool.and_eq_true]
      constructor
      · rw [map_fst_sortedTop]
        exact keysSortedB_of_sorted_nodup _ (List.sorted_insertionSort _ _)
          ((List.perm_insertionSort _ _).nodup_iff.mpr (List.nodup_dedup _))
      · apply ysortedEnts_of_forall
        intro p hp
        obtain ⟨k, hkmem, hpk⟩ := List.mem_map.mp hp
        obtain ⟨w, hw⟩ := mem_keys_assocGet es k
          ((mem_sortLex_dedup (es.map Prod.fst) k).mp hkmem)
        have hp2 : p.2 = sortedHashV w := by
          rw [← hpk]
          show (assocGet (entsRec es) k).getD YVal.other = sortedHashV w
          rw [assocGet_entsRec, hw]
          rfl
        rw [hp2]
        have hsz : sizeOf w < sizeOf es := assocGet_some_sizeOf es k w hw
        have hes : sizeOf (YVal.map es) = 1 + sizeOf es := by simp
        exact ih w (by omega)

theorem deepGet_deepSetH (ks : List (List Char)) (es : List (List Char × YVal))
    (v : List Char) (h : ks ≠ []) :
    deepGet (YVal.map (deepSetH es ks v)) ks = some (YVal.str v) := by
  induction ks generalizing es with
  | nil => exact absurd rfl h
  | cons k rest ih =>
    cases rest with
    | nil =>
      show (match assocGet (assocSet es k (YVal.str v)) k with
        | some w => deepGet w []
        | none => none) = some (YVal.str v)
      rw [assocGet_assocSet_self]
      rfl
    | cons k2 rest2 =>
      show (match assocGet (assocSet es k (YVal.map (deepSetH
          (match assocGet es k with
           | some (YVal.map m) => m
           | _ => []) (k2 :: rest2) v))) k with
        | some w => deepGet w (k2 :: rest2)
        | none => none) = some (YVal.str v)
      rw [assocGet_assocSet_self]
      exact ih _ (by simp)

theorem deepGet_sortedHashV (ks : List (List Char)) (v : YVal) :
    deepGet (sortedHashV v) ks = (deepGet v ks).map sortedHashV := by
  induction ks generalizing v with
  | nil => cases v <;> rfl
  | cons k rest ih =>
    cases v with
    | str s => rfl
    | other => rfl
    | map es =>
      have hsc := assocGet_sortedTop es k
      cases hg : assocGet es k with
      | none =>
        rw [hg] at hsc
        show (match assocGet (sortedTop es) k with
          | some w => deepGet w rest
          | none => none) =
          (match assocGet es k with
            | some w => deepGet w rest
            | none => none).map sortedHashV
        rw [hsc, hg]
        rfl
      | some w =>
        rw [hg] at hsc
        show (match assocGet (sortedTop es) k with
          | some u => deepGet u rest
          | none => none) =
          (match assocGet es k with
            | some u => deepGet u rest
            | none => none).map sortedHashV
        rw [hsc, hg]
        show deepGet (sortedHashV w) rest = (deepGet w rest).map sortedHashV
        exact ih w

theorem targetOf_cases (fs : List (List Char × YVal)) (loc : List Char) :
    targetOf fs loc = dashName loc ∨ targetOf fs loc = undName loc := by
  unfold targetOf
  cases assocGet fs (dashName loc) with
  | none => exact Or.inr rfl
  | some w => exact Or.inl rfl

theorem writeValues_frame (parts : List (List Char)) (values : List (List Char × List Char)) :
    ∀ (fs : List (List Char × YVal)) (n : List Char),
      (∀ pr ∈ values, n ≠ dashName pr.1 ∧ n ≠ undName pr.1) →
      assocGet (values.foldl (writeStep parts) fs) n = assocGet fs n := by
  induction values with
  | nil => intro fs n hn; rfl
  | cons pr rest ih =>
    intro fs n hn
    rw [List.foldl_cons,
      ih (writeStep parts fs pr) n (fun p hp => hn p (List.mem_cons_of_mem pr hp))]
    have hpr := hn pr (List.mem_cons_self pr rest)
    unfold writeStep
    rcases targetOf_cases fs pr.1 with ht | ht <;> rw [ht]
    · exact assocGet_assocSet_ne fs (dashName pr.1) n _ hpr.1
    · exact assocGet_assocSet_ne fs (undName pr.1) n _ hpr.2

/-- Claim C9: the write script touches only primary files: a file whose name
is neither the dash-normalized nor the underscore-normalized name of any
written locale is unchanged; for a single written locale everything but the
target file (the dash-normalized name when that file exists, the
underscore-normalized one otherwise) is unchanged, and the target file
becomes a mapping with recursively sorted string keys holding the written
string value under the selected top-level key followed by the key path. -/
theorem c9_write_values (fs : List (List Char × YVal)) (keyPath : List Char)
    (values : List (List Char × List Char)) (loc v : List Char) :
    (∀ n, (∀ pr ∈ values, n ≠ dashName pr.1 ∧ n ≠ undName pr.1) →
      assocGet (writeValues fs keyPath values) n = assocGet fs n)
    ∧ (∀ n, n ≠ targetOf fs loc →
      assocGet (writeValues fs keyPath [(loc, v)]) n = assocGet fs n)
    ∧ (∃ c, assocGet (writeValues fs keyPath [(loc, v)]) (targetOf fs loc) = some c
        ∧ ysortedV c = true
        ∧ deepGet c (topKeyOf fs loc :: rubySplitDots keyPath) = some (YVal.str v)) := by
  refine ⟨?_, ?_, ?_⟩
  · intro n hn
    exact writeValues_frame (rubySplitDots keyPath) values fs n hn
  · intro n hne
    show assocGet (writeStep (rubySplitDots keyPath) fs (loc, v)) n = assocGet fs n
    unfold writeStep
    exact assocGet_assocSet_ne fs (targetOf fs loc) n _ hne
  · refine ⟨YVal.map (sortedTop (deepSetH (dataOf fs loc)
      (topKeyOf fs loc :: rubySplitDots keyPath) v)), ?_, ?_, ?_⟩
    · show assocGet (writeStep (rubySplitDots keyPath) fs (loc, v)) (targetOf fs loc) = _
      unfold writeStep
      exact assocGet_assocSet_self fs (targetOf fs loc) _
    · exact ysortedV_sortedHashV (YVal.map (deepSetH (dataOf fs loc)
        (topKeyOf fs loc :: rubySplitDots keyPath) v))
    · have h1 := deepGet_deepSetH (topKeyOf fs loc :: rubySplitDots keyPath)
        (dataOf fs loc) v (by simp)
      have h2 := deepGet_sortedHashV (topKeyOf fs loc :: rubySplitDots keyPath)
        (YVal.map (deepSetH (dataOf fs loc) (topKeyOf fs loc :: rubySplitDots keyPath) v))
      rw [h1] at h2
      exact h2

/-- Concrete file system for the witness: an existing dash-named primary file
for en-US holding an unsorted mapping, and an extra file for the same
locale. -/
def c9Fs : List (List Char × YVal) :=
  [(lc "en-US.yml", YVal.map [(lc "en-US",
      YVal.map [(lc "z", YVal.str (lc "old")), (lc "a", YVal.str (lc "keep"))])]),
   (lc "doorkeeper.en-US.yml", YVal.map [(lc "en-US",
      YVal.map [(lc "b", YVal.str (lc "extra"))])])]

theorem c9_write_values_witness :
    (assocGet (writeValues c9Fs (lc "b") [(lc "en-US", lc "new")])
        (lc "doorkeeper.en-US.yml") = assocGet c9Fs (lc "doorkeeper.en-US.yml"))
    ∧ (∃ c, assocGet (writeValues c9Fs (lc "b") [(lc "en-US", lc "new")])
          (targetOf c9Fs (lc "en-US")) = some c
        ∧ ysortedV c = true
        ∧ deepGet c (topKeyOf c9Fs (lc "en-US") :: rubySplitDots (lc "b")) =
          some (YVal.str (lc "new"))) :=
  ⟨(c9_write_values c9Fs (lc "b") [(lc "en-US", lc "new")] (lc "en-US") (lc "new")).1
      (lc "doorkeeper.en-US.yml") (by decide),
   (c9_write_values c9Fs (lc "b") [(lc "en-US", lc "new")] (lc "en-US") (lc "new")).2.2⟩

end I18nRails
